import Mathlib

/-!
Verification development for the guardrails validation server
(`src/nemo-server/main.py`): a shallow embedding of its text normalization
and input/output validation engine, together with theorems about its
specification.

Modelling conventions:
* Python strings are modelled as `String` / `List Char` (one element per
  Unicode scalar value, matching Python's per-code-point `len`).
* The regex class `\s` (and `str.strip()`) is modelled by the six ASCII
  whitespace characters, and `\d` by the ASCII digits; `re.IGNORECASE`
  is modelled by ASCII case pairs.  All rewrite patterns in the source
  are literal strings except the `pf`/`cos` shorthand rewrites and the
  whitespace collapse, which are modelled by dedicated scanners below.
* `re.sub` with a literal pattern is the left-to-right, non-overlapping
  replace-all `repAll`; the scanners mirror `re.sub` for their patterns
  (leftmost match, equivalent to greedy backtracking here, continue after
  the replaced segment).
* The recursive scanners are implemented with a structural fuel argument
  (initialised to the list length) so that they evaluate inside the
  kernel; the lemmas `repAll_cons` etc. recover the natural recursion
  equations, and all reasoning goes through those equations.
* `int((len(b) * 3) / 4)` is modelled as exact natural floor division;
  the intermediate Python float arithmetic is exact for every length
  below `2 ^ 53 / 3`, where the two agree.
-/

namespace NemoGuard

/-- ASCII whitespace, modelling the regex class `\s` and `str.strip`. -/
def isWs (c : Char) : Bool :=
  c == ' ' || c == '\t' || c == '\n' || c == '\r' || c == '\x0b' || c == '\x0c'

/-- ASCII digit, modelling the regex class `\d`. -/
def isDig (c : Char) : Bool :=
  '0' ≤ c && c ≤ '9'

/-- `UNIT_MAPPINGS` from the source: ordered (pattern, replacement) pairs,
Korean unit names to standard symbols.  All patterns are regex-literal. -/
def UNIT_MAPPINGS : List (String × String) :=
  [("럭스", "lx"), ("루멘", "lm"), ("칸델라", "cd"), ("킬로와트", "kW"),
   ("와트", "W"), ("볼트", "V"), ("암페어", "A"), ("옴", "Ω"),
   ("제곱미터", "m²"), ("평방미터", "m²"), ("키로바", "kVA"),
   ("케이브이에이", "kVA"), ("키로바르", "kVar"), ("케이바르", "kVar"),
   ("퍼센트", "%"), ("프로", "%")]

/-- `TYPO_MAPPINGS` from the source: typo corrections, all regex-literal. -/
def TYPO_MAPPINGS : List (String × String) :=
  [("역율", "역률"), ("조명율", "조명률"), ("인피던스", "임피던스"),
   ("코사인", "cosθ"), ("코싸인", "cosθ"), ("탄젠트", "tanθ"),
   ("파이", "π"), ("루트", "√")]

/-- Fuel-driven body of `repAll`; the fuel only bounds the recursion depth. -/
def repAllAux (p r : List Char) : Nat → List Char → List Char
  | _, [] => []
  | 0, s => s
  | fuel + 1, c :: cs =>
    if p.isPrefixOf (c :: cs) then r ++ repAllAux p r fuel (cs.drop (p.length - 1))
    else c :: repAllAux p r fuel cs

/-- `re.sub` with a literal pattern `p` and replacement `r`: scan left to
right, replace every non-overlapping occurrence, continue after the
replaced segment. -/
def repAll (p r s : List Char) : List Char :=
  repAllAux p r s.length s

/-- Apply an ordered table of literal rewrite rules, as the source's
`for pattern, replacement in ...: re.sub(...)` loops do. -/
def applyMappings (rules : List (String × String)) (s : List Char) : List Char :=
  rules.foldl (fun acc pr => repAll pr.1.data pr.2.data acc) s

/-- Read one ASCII digit, returning it and the rest. -/
def digitHead : List Char → Option (Char × List Char)
  | [] => none
  | c :: cs => if isDig c then some (c, cs) else none

/-- Parse the `\s*=?\s*(\d)` tail shared by the `pf` and `cos` shorthand
regexes: optional whitespace, optional `=`, optional whitespace, digit.
Greedy backtracking coincides with this deterministic maximal munch
because whitespace, `=` and digits are disjoint character classes. -/
def numTail (t : List Char) : Option (Char × List Char) :=
  match t.dropWhile isWs with
  | [] => none
  | c :: t2 =>
    if c = '=' then digitHead (t2.dropWhile isWs) else digitHead (c :: t2)

/-- First two characters of the `pf` shorthand, case-insensitively. -/
def isPfStart (c1 c2 : Char) : Bool :=
  (c1 == 'p' || c1 == 'P') && (c2 == 'f' || c2 == 'F')

/-- First three characters of the `cos` shorthand, case-insensitively. -/
def isCosStart (c1 c2 c3 : Char) : Bool :=
  (c1 == 'c' || c1 == 'C') && (c2 == 'o' || c2 == 'O') && (c3 == 's' || c3 == 'S')

/-- Try to match `pf\s*=?\s*(\d)` (IGNORECASE) at the head of the list,
returning the captured digit and the remainder after the match. -/
def tryPf : List Char → Option (Char × List Char)
  | c1 :: c2 :: rest => if isPfStart c1 c2 then numTail rest else none
  | _ => none

/-- Try to match `cos\s*=?\s*(\d)` (IGNORECASE) at the head of the list. -/
def tryCos : List Char → Option (Char × List Char)
  | c1 :: c2 :: c3 :: rest => if isCosStart c1 c2 c3 then numTail rest else none
  | _ => none

/-- Fuel-driven body of `pfScan`. -/
def pfScanAux : Nat → List Char → List Char
  | _, [] => []
  | 0, s => s
  | fuel + 1, c :: cs =>
    match tryPf (c :: cs) with
    | some (d, rem) => '역' :: '률' :: ' ' :: d :: pfScanAux fuel rem
    | none => c :: pfScanAux fuel cs

/-- `re.sub(r"pf\s*=?\s*(\d)", r"역률 \1", s, flags=re.IGNORECASE)`:
replace every leftmost match with `역률 ` followed by the captured digit. -/
def pfScan (s : List Char) : List Char :=
  pfScanAux s.length s

/-- Fuel-driven body of `cosScan`. -/
def cosScanAux : Nat → List Char → List Char
  | _, [] => []
  | 0, s => s
  | fuel + 1, c :: cs =>
    match tryCos (c :: cs) with
    | some (d, rem) =>
      'c' :: 'o' :: 's' :: 'θ' :: ' ' :: '=' :: ' ' :: d :: cosScanAux fuel rem
    | none => c :: cosScanAux fuel cs

/-- `re.sub(r"cos\s*=?\s*(\d)", r"cosθ = \1", s, flags=re.IGNORECASE)`. -/
def cosScan (s : List Char) : List Char :=
  cosScanAux s.length s

/-- Fuel-driven body of `collapseWs`. -/
def collapseWsAux : Nat → List Char → List Char
  | _, [] => []
  | 0, s => s
  | fuel + 1, c :: cs =>
    if isWs c then ' ' :: collapseWsAux fuel (cs.dropWhile isWs)
    else c :: collapseWsAux fuel cs

/-- `re.sub(r"\s+", " ", s)`: collapse every maximal whitespace run to a
single space. -/
def collapseWs (s : List Char) : List Char :=
  collapseWsAux s.length s

/-- Leading-whitespace strip. -/
def lstripWs (s : List Char) : List Char := s.dropWhile isWs

/-- Trailing-whitespace strip. -/
def rstripWs (s : List Char) : List Char := (s.reverse.dropWhile isWs).reverse

/-- Python `str.strip()`. -/
def pyStrip (s : List Char) : List Char := rstripWs (lstripWs s)

/-- The body of `normalize_text`, on character lists: strip, apply the unit
mappings, apply the typo mappings, rewrite the `pf` and `cos` shorthands,
collapse whitespace, strip again. -/
def normalizeData (s : List Char) : List Char :=
  pyStrip (collapseWs (cosScan (pfScan
    (applyMappings TYPO_MAPPINGS (applyMappings UNIT_MAPPINGS (pyStrip s))))))

/-- `normalize_text` from the source. -/
def normalize_text (text : String) : String :=
  ⟨normalizeData text.data⟩

/-! ### Input validation (`/validate/input`) -/

def msg_too_short : String := "질문이 너무 짧습니다. 좀 더 구체적으로 입력해주세요."

def msg_too_long : String := "질문이 너무 깁니다. 2000자 이하로 입력해주세요."

def msg_blocked : String := "부적절한 내용이 포함되어 있습니다."

def msg_image_too_big : String := "이미지 크기가 10MB를 초과합니다."

def msg_must_supply : String := "문제 텍스트 또는 이미지를 입력해주세요."

/-- `INPUT_RAILS["topical"]["allowed_topics"]` from the source. -/
def INPUT_RAILS_allowed_topics : List String :=
  ["전기설비", "전기공사", "전력계통", "시퀀스", "PLC",
   "조명", "역률", "변압기", "접지", "KEC", "전기기사",
   "수변전", "배선", "단락", "과전류", "누전", "콘덴서",
   "임피던스", "전압강하", "광속법", "축전지", "태양광",
   "차단기", "보호계전기", "단선도", "결선도", "제어회로"]

/-- `INPUT_RAILS["topical"]["blocked_patterns"]` from the source: each
regex is an alternation of literal words, modelled as the list of its
alternatives (matching means some alternative occurs as a substring;
`re.IGNORECASE` is vacuous on these all-Korean literals). -/
def INPUT_RAILS_blocked_patterns : List (List String) :=
  [["욕설", "비속어", "공격적"],
   ["개인정보", "주민등록", "전화번호", "주소"],
   ["해킹", "크래킹", "불법"],
   ["성적", "음란", "19금"]]

def INPUT_RAILS_min_length : Nat := 3

def INPUT_RAILS_max_length : Nat := 2000

def INPUT_RAILS_max_size_bytes : Nat := 10 * 1024 * 1024

/-- Whether one blocked-pattern alternation matches the text. -/
def patternHits (alts : List String) (t : List Char) : Bool :=
  alts.any fun lit => decide (lit.data <:+: t)

/-- `check_blocked_patterns` from the source: scan the patterns in order
and return the fixed inappropriate-content message on the first match. -/
def check_blocked_patterns (t : List Char) : Option String :=
  match INPUT_RAILS_blocked_patterns.find? (fun alts => patternHits alts t) with
  | some _ => some msg_blocked
  | none => none

/-- `check_relevance` from the source (`topic in text` for any topic). -/
def check_relevance (t : List Char) : Bool :=
  INPUT_RAILS_allowed_topics.any fun topic => decide (topic.data <:+: t)

/-- `estimate_base64_size` from the source: `int((len(b) * 3) / 4)`. -/
def estimate_base64_size (b : String) : Nat :=
  b.length * 3 / 4

/-- Python truthiness of an optional string (`None` and `""` are falsy). -/
def pyTruthy : Option String → Bool
  | none => false
  | some s => !(s == "")

/-- Python truthiness of an optional list (`None` and `[]` are falsy). -/
def listTruthy {α : Type} : Option (List α) → Bool
  | none => false
  | some l => !l.isEmpty

structure InputValidationRequest where
  text : Option String
  image_base64 : Option String
deriving DecidableEq

structure InputValidationResponse where
  valid : Bool
  errors : List String
  normalized_text : Option String
deriving DecidableEq

/-- Errors contributed by the `if request.text:` block of `validate_input`,
in source order: too short, too long, blocked patterns. -/
def input_text_errors (otext : Option String) : List String :=
  match otext with
  | none => []
  | some t =>
    if t = "" then []
    else
      (if (normalize_text t).length < INPUT_RAILS_min_length then [msg_too_short] else [])
        ++ (if (normalize_text t).length > INPUT_RAILS_max_length then [msg_too_long] else [])
        ++ (match check_blocked_patterns (normalize_text t).data with
            | some e => [e]
            | none => [])

/-- The `normalized_text` value produced by `validate_input`. -/
def input_normalized (otext : Option String) : Option String :=
  match otext with
  | none => none
  | some t => if t = "" then none else some (normalize_text t)

/-- Errors contributed by the `if request.image_base64:` block. -/
def input_image_errors (oimg : Option String) : List String :=
  match oimg with
  | none => []
  | some b =>
    if b = "" then []
    else if estimate_base64_size b > INPUT_RAILS_max_size_bytes then [msg_image_too_big]
    else []

/-- Error contributed by the at-least-one-input check. -/
def input_supply_errors (otext oimg : Option String) : List String :=
  if !pyTruthy otext && !pyTruthy oimg then [msg_must_supply] else []

/-- `validate_input` from the source: normalize the text when supplied and
run every applicable check, accumulating errors in order (too short, too
long, blocked patterns, image size, nothing supplied); the verdict is
`valid = (len(errors) == 0)` and the normalized text is returned whenever
text was supplied and truthy. -/
def validate_input (request : InputValidationRequest) : InputValidationResponse :=
  let errors := input_text_errors request.text
    ++ input_image_errors request.image_base64
    ++ input_supply_errors request.text request.image_base64
  { valid := errors.length == 0, errors := errors,
    normalized_text := input_normalized request.text }

/-! ### Output validation (`/validate/output`) -/

def msg_missing_unit : String := "답에 단위가 누락된 것 같습니다."

/-- The low-confidence warning; the f-string
`f"신뢰도가 \x7bOUTPUT_RAILS['quality']['min_confidence'] * 100\x7d% 미만입니다."`
renders `0.7 * 100` as `70.0`. -/
def msg_low_confidence : String := "신뢰도가 70.0% 미만입니다."

def missing_field_msg (field : String) : String :=
  field ++ " 필드가 누락되었습니다."

def step_warning (n : Nat) : String :=
  "풀이 단계 " ++ toString n ++ "의 제목 또는 내용이 누락되었습니다."

/-- `OUTPUT_RAILS["si_units"]` from the source. -/
def OUTPUT_RAILS_si_units : List String :=
  ["V", "A", "W", "Ω", "F", "H", "lx", "lm", "cd", "m", "mm²", "kVA", "kVar", "kW", "%"]

/-- `OUTPUT_RAILS["quality"]["min_confidence"]` from the source. -/
def OUTPUT_RAILS_min_confidence : ℚ := 7 / 10

/-- One solution step, modelling `step.get("title")` / `step.get("content")`
on the step dictionaries. -/
structure SolutionStep where
  title : Option String
  content : Option String
deriving DecidableEq

structure OutputValidationRequest where
  answer : Option String
  steps : Option (List SolutionStep)
  formulas : Option (List String)
  confidence : Option ℚ
  related_kec : Option (List String)

structure OutputValidationResponse where
  valid : Bool
  warnings : List String
  corrections : List String
deriving DecidableEq

/-- `validate_output` from the source: warn on missing required fields, a
numerical answer without a recognized unit, incomplete steps, and low
confidence; `corrections` is never populated, and the verdict is
`valid = (len(corrections) == 0)`. -/
def output_required_warnings (request : OutputValidationRequest) : List String :=
  (if pyTruthy request.answer then [] else [missing_field_msg "answer"])
    ++ (if listTruthy request.steps then [] else [missing_field_msg "steps"])
    ++ (if listTruthy request.formulas then [] else [missing_field_msg "formulas"])

/-- Warnings from the `if request.answer:` block: a digit with none of the
recognized units present as a substring. -/
def output_answer_warnings (oanswer : Option String) : List String :=
  match oanswer with
  | none => []
  | some a =>
    if a = "" then []
    else
      if a.data.any isDig && !(OUTPUT_RAILS_si_units.any fun u => decide (u.data <:+: a.data))
      then [msg_missing_unit] else []

/-- Warnings from the `if request.steps:` block: per-step completeness. -/
def output_step_warnings (osteps : Option (List SolutionStep)) : List String :=
  match osteps with
  | none => []
  | some steps =>
    if steps.isEmpty then []
    else
      steps.enum.filterMap fun p =>
        if pyTruthy p.2.title && pyTruthy p.2.content then none
        else some (step_warning (p.1 + 1))

/-- Warning from the confidence check. -/
def output_confidence_warnings (oconf : Option ℚ) : List String :=
  match oconf with
  | none => []
  | some c => if c < OUTPUT_RAILS_min_confidence then [msg_low_confidence] else []

def validate_output (request : OutputValidationRequest) : OutputValidationResponse :=
  let warnings := output_required_warnings request
    ++ output_answer_warnings request.answer
    ++ output_step_warnings request.steps
    ++ output_confidence_warnings request.confidence
  let corrections : List String := []
  { valid := corrections.length == 0, warnings := warnings, corrections := corrections }

/-! ### Rewrite-system side conditions

`okPair q r` states that inserting the replacement `r` into a string can
neither contain nor help form an occurrence of the pattern `q`: `q` does
not occur in `r`, `r` does not occur in `q`, no nonempty suffix of `r` is
a proper prefix of `q`, and no nonempty prefix of `r` is a proper suffix
of `q`.  These conditions are decidable and checked by `decide` for the
concrete rule tables. -/

def okPair (q r : List Char) : Prop :=
  ¬(q <:+: r) ∧ ¬(r <:+: q) ∧
    (∀ u ∈ r.tails, u = [] ∨ ¬(u <+: q) ∨ u = q) ∧
    (∀ u ∈ r.inits, u = [] ∨ ¬(u <:+ q) ∨ u = q)

/-- The two rewrite tables, in the order `normalize_text` applies them. -/
def REWRITE_RULES : List (String × String) := UNIT_MAPPINGS ++ TYPO_MAPPINGS

/-- Soundness conditions for an ordered rule table: every pattern is
nonempty and satisfies `okPair` with its own replacement and with the
replacement of every later rule. -/
def rulesOk : List (String × String) → Prop
  | [] => True
  | pr :: rest =>
    pr.1.data ≠ [] ∧ okPair pr.1.data pr.2.data ∧
      (∀ later ∈ rest, okPair pr.1.data later.2.data) ∧ rulesOk rest

instance okPairDecidable (q r : List Char) : Decidable (okPair q r) := by
  unfold okPair
  exact inferInstance

instance rulesOkDecidable : (l : List (String × String)) → Decidable (rulesOk l)
  | [] => isTrue trivial
  | _ :: rest => by
    unfold rulesOk
    have := rulesOkDecidable rest
    exact inferInstance

/-- No whitespace run or digit inside `q`, `q` does not occur inside the
`역률` core of the `pf` replacement, and no suffix of `q` is `역` or `역률`:
under these conditions the `pf` rewrite cannot create or destroy an
occurrence of `q`. -/
def pfSafe (q : List Char) : Prop :=
  q ≠ [] ∧ (∀ c ∈ q, isWs c = false ∧ isDig c = false) ∧
    ¬(q <:+: ['역', '률']) ∧ ¬(['역'] <:+ q) ∧ ¬(['역', '률'] <:+ q)

/-- `q` shares no character with the `cos` replacement `cosθ = ` plus a
digit. -/
def cosSafe (q : List Char) : Prop :=
  q ≠ [] ∧ ∀ c ∈ q, isWs c = false ∧ isDig c = false ∧
    c ≠ 'c' ∧ c ≠ 'o' ∧ c ≠ 's' ∧ c ≠ 'θ' ∧ c ≠ '='

instance pfSafeDecidable (q : List Char) : Decidable (pfSafe q) := by
  unfold pfSafe
  exact inferInstance

instance cosSafeDecidable (q : List Char) : Decidable (cosSafe q) := by
  unfold cosSafe
  exact inferInstance

/-- No position of `t` starts a `pf` shorthand match. -/
def noPf (t : List Char) : Prop := ∀ u, u <:+ t → tryPf u = none

/-- No position of `t` starts a `cos` shorthand match. -/
def noCos (t : List Char) : Prop := ∀ u, u <:+ t → tryCos u = none

/-- Whitespace-canonical: every whitespace character is a plain space and
no two whitespace characters are adjacent. -/
def wsCanon : List Char → Bool
  | [] => true
  | [c] => !isWs c || (c == ' ')
  | c :: d :: t => (!isWs c || ((c == ' ') && !isWs d)) && wsCanon (d :: t)

/-- Normal forms of the normalization pipeline: no rewrite pattern occurs,
no `pf` or `cos` shorthand matches, whitespace is canonical, and the
string is stripped. -/
def normalForm (t : List Char) : Prop :=
  (∀ pr ∈ REWRITE_RULES, ¬(pr.1.data <:+: t)) ∧ noPf t ∧ noCos t ∧
    wsCanon t = true ∧ pyStrip t = t

theorem digitHead_rem {t rem : List Char} {d : Char}
    (h : digitHead t = some (d, rem)) : rem <:+ t ∧ rem.length < t.length := by
  cases t with
  | nil => simp [digitHead] at h
  | cons c cs =>
    by_cases hd : isDig c = true
    · simp [digitHead, hd] at h
      obtain ⟨-, rfl⟩ := h
      exact ⟨List.suffix_cons c cs, by simp⟩
    · simp [digitHead, hd] at h

theorem numTail_rem {t rem : List Char} {d : Char}
    (h : numTail t = some (d, rem)) : rem <:+ t ∧ rem.length < t.length := by
  unfold numTail at h
  cases hdw : t.dropWhile isWs with
  | nil => rw [hdw] at h; simp at h
  | cons c t2 =>
    rw [hdw] at h
    have hsuf : c :: t2 <:+ t := hdw ▸ List.dropWhile_suffix isWs
    by_cases hc : c = '='
    · simp only [hc, if_pos rfl] at h
      obtain ⟨h1, h2⟩ := digitHead_rem h
      have hsuf2 : t2.dropWhile isWs <:+ t :=
        ((List.dropWhile_suffix isWs).trans (List.suffix_cons c t2)).trans hsuf
      refine ⟨h1.trans hsuf2, ?_⟩
      have := List.IsSuffix.length_le hsuf
      have := List.IsSuffix.length_le (List.dropWhile_suffix isWs (l := t2))
      simp only [List.length_cons] at *
      omega
    · simp only [if_neg hc] at h
      obtain ⟨h1, h2⟩ := digitHead_rem h
      refine ⟨h1.trans hsuf, ?_⟩
      have := List.IsSuffix.length_le hsuf
      omega

theorem tryPf_rem {s rem : List Char} {d : Char}
    (h : tryPf s = some (d, rem)) : rem <:+ s ∧ rem.length < s.length := by
  match s with
  | [] => simp [tryPf] at h
  | [c1] => simp [tryPf] at h
  | c1 :: c2 :: rest =>
    by_cases hp : isPfStart c1 c2 = true
    · simp only [tryPf, if_pos hp] at h
      obtain ⟨h1, h2⟩ := numTail_rem h
      refine ⟨h1.trans ((List.suffix_cons c2 rest).trans (List.suffix_cons c1 _)), ?_⟩
      simp only [List.length_cons]; omega
    · simp [tryPf, hp] at h

theorem tryCos_rem {s rem : List Char} {d : Char}
    (h : tryCos s = some (d, rem)) : rem <:+ s ∧ rem.length < s.length := by
  match s with
  | [] => simp [tryCos] at h
  | [c1] => simp [tryCos] at h
  | [c1, c2] => simp [tryCos] at h
  | c1 :: c2 :: c3 :: rest =>
    by_cases hp : isCosStart c1 c2 c3 = true
    · simp only [tryCos, if_pos hp] at h
      obtain ⟨h1, h2⟩ := numTail_rem h
      refine ⟨h1.trans (((List.suffix_cons c3 rest).trans
        (List.suffix_cons c2 _)).trans (List.suffix_cons c1 _)), ?_⟩
      simp only [List.length_cons]; omega
    · simp [tryCos, hp] at h

/-! ### Fuel irrelevance and recursion equations -/

theorem repAllAux_fuel (p r : List Char) :
    ∀ f1 f2 s, s.length ≤ f1 → s.length ≤ f2 →
      repAllAux p r f1 s = repAllAux p r f2 s := by
  intro f1
  induction f1 with
  | zero =>
    intro f2 s h1 _
    have : s = [] := List.length_eq_zero.mp (Nat.le_zero.mp h1)
    subst this
    cases f2 <;> rfl
  | succ f ih =>
    intro f2 s h1 h2
    cases s with
    | nil => cases f2 <;> rfl
    | cons c cs =>
      cases f2 with
      | zero => simp at h2
      | succ f2' =>
        simp only [repAllAux]
        by_cases hp : p.isPrefixOf (c :: cs)
        · simp only [if_pos hp]
          have hd : (cs.drop (p.length - 1)).length ≤ f := by
            have := List.length_drop (p.length - 1) cs
            simp only [List.length_cons] at h1
            omega
          have hd2 : (cs.drop (p.length - 1)).length ≤ f2' := by
            have := List.length_drop (p.length - 1) cs
            simp only [List.length_cons] at h2
            omega
          rw [ih f2' _ hd hd2]
        · simp only [if_neg hp]
          have hc : cs.length ≤ f := by simp only [List.length_cons] at h1; omega
          have hc2 : cs.length ≤ f2' := by simp only [List.length_cons] at h2; omega
          rw [ih f2' _ hc hc2]

theorem repAll_nil (p r : List Char) : repAll p r [] = [] := rfl

theorem repAll_cons (p r : List Char) (c : Char) (cs : List Char) :
    repAll p r (c :: cs) =
      if p.isPrefixOf (c :: cs) then r ++ repAll p r (cs.drop (p.length - 1))
      else c :: repAll p r cs := by
  show repAllAux p r (cs.length + 1) (c :: cs) = _
  simp only [repAllAux]
  by_cases hp : p.isPrefixOf (c :: cs)
  · simp only [if_pos hp]
    rw [repAllAux_fuel p r cs.length (cs.drop (p.length - 1)).length _
      (by simp only [List.length_drop]; omega) le_rfl]
    rfl
  · simp only [if_neg hp]
    rfl

theorem pfScanAux_fuel :
    ∀ f1 f2 s, s.length ≤ f1 → s.length ≤ f2 → pfScanAux f1 s = pfScanAux f2 s := by
  intro f1
  induction f1 with
  | zero =>
    intro f2 s h1 _
    have : s = [] := List.length_eq_zero.mp (Nat.le_zero.mp h1)
    subst this
    cases f2 <;> rfl
  | succ f ih =>
    intro f2 s h1 h2
    cases s with
    | nil => cases f2 <;> rfl
    | cons c cs =>
      cases f2 with
      | zero => simp at h2
      | succ f2' =>
        simp only [pfScanAux]
        cases htry : tryPf (c :: cs) with
        | some v =>
          obtain ⟨d, rem⟩ := v
          have hlt := (tryPf_rem htry).2
          simp only [List.length_cons] at h1 h2 hlt
          show '역' :: '률' :: ' ' :: d :: pfScanAux f rem =
            '역' :: '률' :: ' ' :: d :: pfScanAux f2' rem
          rw [ih f2' rem (by omega) (by omega)]
        | none =>
          simp only [List.length_cons] at h1 h2
          show c :: pfScanAux f cs = c :: pfScanAux f2' cs
          rw [ih f2' cs (by omega) (by omega)]

theorem pfScan_nil : pfScan [] = [] := rfl

theorem pfScan_cons (c : Char) (cs : List Char) :
    pfScan (c :: cs) =
      match tryPf (c :: cs) with
      | some (d, rem) => '역' :: '률' :: ' ' :: d :: pfScan rem
      | none => c :: pfScan cs := by
  show pfScanAux (cs.length + 1) (c :: cs) = _
  simp only [pfScanAux]
  cases htry : tryPf (c :: cs) with
  | some v =>
    obtain ⟨d, rem⟩ := v
    have hlt := (tryPf_rem htry).2
    simp only [List.length_cons] at hlt
    show '역' :: '률' :: ' ' :: d :: pfScanAux cs.length rem =
      '역' :: '률' :: ' ' :: d :: pfScan rem
    rw [pfScanAux_fuel cs.length rem.length rem (by omega) le_rfl]
    rfl
  | none =>
    show c :: pfScanAux cs.length cs = c :: pfScan cs
    rfl

theorem cosScanAux_fuel :
    ∀ f1 f2 s, s.length ≤ f1 → s.length ≤ f2 → cosScanAux f1 s = cosScanAux f2 s := by
  intro f1
  induction f1 with
  | zero =>
    intro f2 s h1 _
    have : s = [] := List.length_eq_zero.mp (Nat.le_zero.mp h1)
    subst this
    cases f2 <;> rfl
  | succ f ih =>
    intro f2 s h1 h2
    cases s with
    | nil => cases f2 <;> rfl
    | cons c cs =>
      cases f2 with
      | zero => simp at h2
      | succ f2' =>
        simp only [cosScanAux]
        cases htry : tryCos (c :: cs) with
        | some v =>
          obtain ⟨d, rem⟩ := v
          have hlt := (tryCos_rem htry).2
          simp only [List.length_cons] at h1 h2 hlt
          show 'c' :: 'o' :: 's' :: 'θ' :: ' ' :: '=' :: ' ' :: d :: cosScanAux f rem =
            'c' :: 'o' :: 's' :: 'θ' :: ' ' :: '=' :: ' ' :: d :: cosScanAux f2' rem
          rw [ih f2' rem (by omega) (by omega)]
        | none =>
          simp only [List.length_cons] at h1 h2
          show c :: cosScanAux f cs = c :: cosScanAux f2' cs
          rw [ih f2' cs (by omega) (by omega)]

theorem cosScan_nil : cosScan [] = [] := rfl

theorem cosScan_cons (c : Char) (cs : List Char) :
    cosScan (c :: cs) =
      match tryCos (c :: cs) with
      | some (d, rem) =>
        'c' :: 'o' :: 's' :: 'θ' :: ' ' :: '=' :: ' ' :: d :: cosScan rem
      | none => c :: cosScan cs := by
  show cosScanAux (cs.length + 1) (c :: cs) = _
  simp only [cosScanAux]
  cases htry : tryCos (c :: cs) with
  | some v =>
    obtain ⟨d, rem⟩ := v
    have hlt := (tryCos_rem htry).2
    simp only [List.length_cons] at hlt
    show 'c' :: 'o' :: 's' :: 'θ' :: ' ' :: '=' :: ' ' :: d :: cosScanAux cs.length rem =
      'c' :: 'o' :: 's' :: 'θ' :: ' ' :: '=' :: ' ' :: d :: cosScan rem
    rw [cosScanAux_fuel cs.length rem.length rem (by omega) le_rfl]
    rfl
  | none =>
    show c :: cosScanAux cs.length cs = c :: cosScan cs
    rfl

theorem collapseWsAux_fuel :
    ∀ f1 f2 s, s.length ≤ f1 → s.length ≤ f2 →
      collapseWsAux f1 s = collapseWsAux f2 s := by
  intro f1
  induction f1 with
  | zero =>
    intro f2 s h1 _
    have : s = [] := List.length_eq_zero.mp (Nat.le_zero.mp h1)
    subst this
    cases f2 <;> rfl
  | succ f ih =>
    intro f2 s h1 h2
    cases s with
    | nil => cases f2 <;> rfl
    | cons c cs =>
      cases f2 with
      | zero => simp at h2
      | succ f2' =>
        simp only [collapseWsAux]
        have hdw := List.IsSuffix.length_le (List.dropWhile_suffix isWs (l := cs))
        simp only [List.length_cons] at h1 h2
        by_cases hw : isWs c = true
        · simp only [if_pos hw]
          rw [ih f2' _ (by omega) (by omega)]
        · simp only [if_neg hw]
          rw [ih f2' cs (by omega) (by omega)]

theorem collapseWs_nil : collapseWs [] = [] := rfl

theorem collapseWs_cons (c : Char) (cs : List Char) :
    collapseWs (c :: cs) =
      if isWs c then ' ' :: collapseWs (cs.dropWhile isWs)
      else c :: collapseWs cs := by
  show collapseWsAux (cs.length + 1) (c :: cs) = _
  simp only [collapseWsAux]
  have hdw := List.IsSuffix.length_le (List.dropWhile_suffix isWs (l := cs))
  by_cases hw : isWs c = true
  · simp only [if_pos hw]
    rw [collapseWsAux_fuel cs.length (cs.dropWhile isWs).length _ (by omega) le_rfl]
    rfl
  · simp only [if_neg hw]
    rfl

/-! ### Structural lemmas about the validators -/

theorem check_blocked_patterns_eq_some {t : List Char} {e : String}
    (h : check_blocked_patterns t = some e) : e = msg_blocked := by
  unfold check_blocked_patterns at h
  cases hf : INPUT_RAILS_blocked_patterns.find? (fun alts => patternHits alts t) with
  | none => rw [hf] at h; exact absurd h (by simp)
  | some alts => rw [hf] at h; exact (Option.some_inj.mp h).symm

theorem check_blocked_patterns_hit {t : List Char}
    (h : ∃ alts ∈ INPUT_RAILS_blocked_patterns, ∃ lit ∈ alts, lit.data <:+: t) :
    check_blocked_patterns t = some msg_blocked := by
  obtain ⟨alts, ha, lit, hl, hinf⟩ := h
  have hp : patternHits alts t = true :=
    List.any_eq_true.mpr ⟨lit, hl, decide_eq_true hinf⟩
  unfold check_blocked_patterns
  cases hf : INPUT_RAILS_blocked_patterns.find? (fun alts => patternHits alts t) with
  | none =>
    exact absurd hp (by simpa using List.find?_eq_none.mp hf alts ha)
  | some _ => rfl

theorem input_text_errors_mem {o : Option String} {e : String}
    (h : e ∈ input_text_errors o) :
    e = msg_too_short ∨ e = msg_too_long ∨ e = msg_blocked := by
  cases o with
  | none => simp [input_text_errors] at h
  | some t =>
    simp only [input_text_errors] at h
    by_cases ht : t = ""
    · rw [if_pos ht] at h; simp at h
    · rw [if_neg ht] at h
      rcases List.mem_append.mp h with h1 | h2
      · rcases List.mem_append.mp h1 with h3 | h4
        · split_ifs at h3 with hc
          · exact Or.inl (List.mem_singleton.mp h3)
          · simp at h3
        · split_ifs at h4 with hc
          · exact Or.inr (Or.inl (List.mem_singleton.mp h4))
          · simp at h4
      · cases hb : check_blocked_patterns (normalize_text t).data with
        | none => rw [hb] at h2; simp at h2
        | some e' =>
          rw [hb] at h2
          exact Or.inr (Or.inr ((List.mem_singleton.mp h2).trans
            (check_blocked_patterns_eq_some hb)))

theorem validate_input_valid_false {req : InputValidationRequest}
    (h : (validate_input req).errors ≠ []) : (validate_input req).valid = false := by
  have hv : (validate_input req).valid = ((validate_input req).errors.length == 0) := rfl
  rw [hv]
  exact beq_eq_false_iff_ne.mpr fun hh => h (List.length_eq_zero.mp hh)

theorem pyTruthy_some_ne {t : String} (h : t ≠ "") : pyTruthy (some t) = true := by
  simp [pyTruthy, h]

/-! ### Generic lemmas about occurrences and `repAll` -/

theorem prefix_append_cases {v a b : List Char} (h : v <+: a ++ b) :
    v <+: a ∨ ∃ w, v = a ++ w ∧ w <+: b := by
  obtain ⟨t, ht⟩ := h
  rcases List.append_eq_append_iff.mp ht with ⟨x, hx1, _⟩ | ⟨y, hy1, hy2⟩
  · exact Or.inl ⟨x, hx1.symm⟩
  · exact Or.inr ⟨y, hy1, ⟨t, hy2.symm⟩⟩

theorem infix_append_split {q a b : List Char} (h : q <:+: a ++ b) :
    q <:+: a ∨ q <:+: b ∨
      ∃ u v, u ≠ [] ∧ v ≠ [] ∧ q = u ++ v ∧ u <:+ a ∧ v <+: b := by
  obtain ⟨s, t, hst⟩ := h
  have hst' : s ++ (q ++ t) = a ++ b := by
    rw [← List.append_assoc]; exact hst
  rcases List.append_eq_append_iff.mp hst' with ⟨x, hx1, hx2⟩ | ⟨y, hy1, hy2⟩
  · rcases List.append_eq_append_iff.mp hx2 with ⟨z, hz1, hz2⟩ | ⟨w, hw1, hw2⟩
    · left
      exact ⟨s, z, by rw [hx1, hz1]; exact List.append_assoc s q z⟩
    · by_cases hx : x = []
      · subst hx
        rw [List.nil_append] at hw1
        subst hw1
        exact Or.inr (Or.inl (List.IsPrefix.isInfix ⟨t, hw2.symm⟩))
      · by_cases hw : w = []
        · subst hw
          rw [List.append_nil] at hw1
          subst hw1
          exact Or.inl (List.IsSuffix.isInfix ⟨s, hx1.symm⟩)
        · exact Or.inr (Or.inr ⟨x, w, hx, hw, hw1, ⟨s, hx1.symm⟩, ⟨t, hw2.symm⟩⟩)
  · right; left
    exact ⟨y, t, by rw [hy2]; exact List.append_assoc y q t⟩

/-- If a nonempty suffix `v` ofyes `q` is a prefix of `repAll p r s`, it is a
prefix of `s` itself (the `okPair` conditions rule out `v` overlapping an
inserted replacement). -/
theorem repAll_prefix_rev {p r q : List Char} (hok : okPair q r) :
    ∀ n s v, s.length ≤ n → v ≠ [] → v <:+ q → v <+: repAll p r s → v <+: s := by
  intro n
  induction n with
  | zero =>
    intro s v hlen hv _ hpre
    have hs : s = [] := List.length_eq_zero.mp (Nat.le_zero.mp hlen)
    subst hs
    rw [repAll_nil] at hpre
    exact absurd (List.prefix_nil.mp hpre) hv
  | succ m ih =>
    intro s v hlen hv hvq hpre
    cases s with
    | nil =>
      rw [repAll_nil] at hpre
      exact absurd (List.prefix_nil.mp hpre) hv
    | cons c cs =>
      rw [repAll_cons] at hpre
      by_cases hp : p.isPrefixOf (c :: cs) = true
      · rw [if_pos hp] at hpre
        rcases prefix_append_cases hpre with hvr | ⟨w, hvw, _⟩
        · exfalso
          rcases hok.2.2.2 v ((List.mem_inits _ _).mpr hvr) with h | h | h
          · exact hv h
          · exact h hvq
          · subst h
            exact hok.1 hvr.isInfix
        · exfalso
          apply hok.2.1
          have hrv : r <+: v := ⟨w, hvw.symm⟩
          exact hrv.isInfix.trans hvq.isInfix
      · rw [if_neg hp] at hpre
        cases v with
        | nil => exact absurd rfl hv
        | cons a v' =>
          rw [List.cons_prefix_cons] at hpre
          obtain ⟨rfl, hv'⟩ := hpre
          by_cases hv'nil : v' = []
          · subst hv'nil
            exact List.cons_prefix_cons.mpr ⟨rfl, List.nil_prefix⟩
          · have hv'q : v' <:+ q := (List.suffix_cons a v').trans hvq
            have hlen' : cs.length ≤ m := by
              simp only [List.length_cons] at hlen; omega
            exact List.cons_prefix_cons.mpr ⟨rfl, ih cs v' hlen' hv'nil hv'q hv'⟩

/-- After `repAll p r`, the pattern `p` no longer occurs (under its own
`okPair` conditions). -/
theorem repAll_no_self {p r : List Char} (hp : p ≠ []) (hok : okPair p r) :
    ∀ n s, s.length ≤ n → ¬(p <:+: repAll p r s) := by
  intro n
  induction n with
  | zero =>
    intro s hlen h
    have hs : s = [] := List.length_eq_zero.mp (Nat.le_zero.mp hlen)
    subst hs
    rw [repAll_nil] at h
    exact hp (List.infix_nil.mp h)
  | succ m ih =>
    intro s hlen h
    cases s with
    | nil =>
      rw [repAll_nil] at h
      exact hp (List.infix_nil.mp h)
    | cons c cs =>
      rw [repAll_cons] at h
      by_cases hpp : p.isPrefixOf (c :: cs) = true
      · rw [if_pos hpp] at h
        rcases infix_append_split h with h1 | h2 | ⟨u, v, hu, hv, huv, hus, _⟩
        · exact hok.1 h1
        · have hdl : (cs.drop (p.length - 1)).length ≤ m := by
            have := List.length_drop (p.length - 1) cs
            simp only [List.length_cons] at hlen
            omega
          exact ih _ hdl h2
        · rcases hok.2.2.1 u ((List.mem_tails _ _).mpr hus) with h' | h' | h'
          · exact hu h'
          · exact h' ⟨v, huv.symm⟩
          · subst h'
            have : v = [] := by
              have hle := congrArg List.length huv
              simp only [List.length_append] at hle
              exact List.length_eq_zero.mp (by omega)
            exact hv this
      · rw [if_neg hpp] at h
        rcases List.infix_cons_iff.mp h with h1 | h2
        · cases p with
          | nil => exact hp rfl
          | cons a p' =>
            rw [List.cons_prefix_cons] at h1
            obtain ⟨rfl, hp'⟩ := h1
            apply hpp
            apply List.isPrefixOf_iff_prefix.mpr
            by_cases hp'nil : p' = []
            · subst hp'nil
              exact List.cons_prefix_cons.mpr ⟨rfl, List.nil_prefix⟩
            · have hlen' : cs.length ≤ m := by
                simp only [List.length_cons] at hlen; omega
              have := repAll_prefix_rev hok cs.length cs p' le_rfl hp'nil
                ((List.suffix_cons a p').trans (List.suffix_refl _)) hp'
              exact List.cons_prefix_cons.mpr ⟨rfl, this⟩
        · have hlen' : cs.length ≤ m := by
            simp only [List.length_cons] at hlen; omega
          exact ih cs hlen' h2

/-- `repAll p r` cannot create a new occurrence of a pattern `q` that did
not occur before, when `q` and `r` satisfy the `okPair` conditions. -/
theorem repAll_keeps {p r q : List Char} (hq : q ≠ []) (hok : okPair q r) :
    ∀ n s, s.length ≤ n → ¬(q <:+: s) → ¬(q <:+: repAll p r s) := by
  intro n
  induction n with
  | zero =>
    intro s hlen _ h
    have hs : s = [] := List.length_eq_zero.mp (Nat.le_zero.mp hlen)
    subst hs
    rw [repAll_nil] at h
    exact hq (List.infix_nil.mp h)
  | succ m ih =>
    intro s hlen hs h
    cases s with
    | nil =>
      rw [repAll_nil] at h
      exact hq (List.infix_nil.mp h)
    | cons c cs =>
      rw [repAll_cons] at h
      by_cases hpp : p.isPrefixOf (c :: cs) = true
      · rw [if_pos hpp] at h
        rcases infix_append_split h with h1 | h2 | ⟨u, v, hu, hv, huv, hus, _⟩
        · exact hok.1 h1
        · have hdl : (cs.drop (p.length - 1)).length ≤ m := by
            have := List.length_drop (p.length - 1) cs
            simp only [List.length_cons] at hlen
            omega
          have hnd : ¬(q <:+: cs.drop (p.length - 1)) := fun hc =>
            hs (hc.trans ((List.drop_suffix _ cs).trans (List.suffix_cons c cs)).isInfix)
          exact ih _ hdl hnd h2
        · rcases hok.2.2.1 u ((List.mem_tails _ _).mpr hus) with h' | h' | h'
          · exact hu h'
          · exact h' ⟨v, huv.symm⟩
          · subst h'
            have : v = [] := by
              have hle := congrArg List.length huv
              simp only [List.length_append] at hle
              exact List.length_eq_zero.mp (by omega)
            exact hv this
      · rw [if_neg hpp] at h
        rcases List.infix_cons_iff.mp h with h1 | h2
        · cases q with
          | nil => exact hq rfl
          | cons a q' =>
            rw [List.cons_prefix_cons] at h1
            obtain ⟨rfl, hq'⟩ := h1
            apply hs
            apply List.IsPrefix.isInfix
            by_cases hq'nil : q' = []
            · subst hq'nil
              exact List.cons_prefix_cons.mpr ⟨rfl, List.nil_prefix⟩
            · have := repAll_prefix_rev hok cs.length cs q' le_rfl hq'nil
                (List.suffix_cons a q') hq'
              exact List.cons_prefix_cons.mpr ⟨rfl, this⟩
        · have hlen' : cs.length ≤ m := by
            simp only [List.length_cons] at hlen; omega
          have hnc : ¬(q <:+: cs) := fun hc => hs (List.infix_cons hc)
          exact ih cs hlen' hnc h2

/-- `repAll` is the identity on strings in which the pattern does not
occur. -/
theorem repAll_id {p r : List Char} :
    ∀ n s, s.length ≤ n → ¬(p <:+: s) → repAll p r s = s := by
  intro n
  induction n with
  | zero =>
    intro s hlen _
    have hs : s = [] := List.length_eq_zero.mp (Nat.le_zero.mp hlen)
    subst hs
    exact repAll_nil p r
  | succ m ih =>
    intro s hlen hocc
    cases s with
    | nil => exact repAll_nil p r
    | cons c cs =>
      rw [repAll_cons]
      by_cases hpp : p.isPrefixOf (c :: cs) = true
      · exact absurd (List.isPrefixOf_iff_prefix.mp hpp).isInfix hocc
      · rw [if_neg hpp]
        have hlen' : cs.length ≤ m := by
          simp only [List.length_cons] at hlen; omega
        rw [ih cs hlen' fun hc => hocc (List.infix_cons hc)]

/-! ### Lemmas about ordered rule tables -/

theorem applyMappings_append (A B : List (String × String)) (s : List Char) :
    applyMappings (A ++ B) s = applyMappings B (applyMappings A s) := by
  unfold applyMappings
  exact List.foldl_append _ _ _ _

theorem applyMappings_keeps {q : List Char} (hq : q ≠ []) :
    ∀ (l : List (String × String)), (∀ pr ∈ l, okPair q pr.2.data) →
      ∀ s, ¬(q <:+: s) → ¬(q <:+: applyMappings l s) := by
  intro l
  induction l with
  | nil => exact fun _ s h => h
  | cons pr rest ih =>
    intro hall s h
    have h1 : ¬(q <:+: repAll pr.1.data pr.2.data s) :=
      repAll_keeps hq (hall pr (List.mem_cons_self _ _)) s.length s le_rfl h
    show ¬(q <:+: applyMappings rest (repAll pr.1.data pr.2.data s))
    exact ih (fun x hx => hall x (List.mem_cons_of_mem _ hx)) _ h1

theorem applyMappings_no_occurs :
    ∀ (l : List (String × String)), rulesOk l →
      ∀ s pr, pr ∈ l → ¬(pr.1.data <:+: applyMappings l s) := by
  intro l
  induction l with
  | nil => intro _ s pr h; simp at h
  | cons hd rest ih =>
    intro hok s pr hm
    obtain ⟨hne, hself, hlater, hrest⟩ := hok
    rcases List.mem_cons.mp hm with rfl | hm'
    · have h1 : ¬(pr.1.data <:+: repAll pr.1.data pr.2.data s) :=
        repAll_no_self hne hself s.length s le_rfl
      show ¬(pr.1.data <:+: applyMappings rest (repAll pr.1.data pr.2.data s))
      exact applyMappings_keeps hne rest hlater _ h1
    · show ¬(pr.1.data <:+: applyMappings rest (repAll hd.1.data hd.2.data s))
      exact ih hrest _ pr hm'

theorem applyMappings_id :
    ∀ (l : List (String × String)) (s : List Char),
      (∀ pr ∈ l, ¬(pr.1.data <:+: s)) → applyMappings l s = s := by
  intro l
  induction l with
  | nil => intro s _; rfl
  | cons hd rest ih =>
    intro s h
    have h1 : repAll hd.1.data hd.2.data s = s :=
      repAll_id s.length s le_rfl (h hd (List.mem_cons_self _ _))
    show applyMappings rest (repAll hd.1.data hd.2.data s) = s
    rw [h1]
    exact ih s fun pr hp => h pr (List.mem_cons_of_mem _ hp)

theorem applyMappings_singleton (pr : String × String) (s : List Char) :
    applyMappings [pr] s = repAll pr.1.data pr.2.data s := rfl

theorem rewrite_rules_ok : rulesOk REWRITE_RULES := by decide

/-- After both mapping passes, no rewrite pattern occurs any more. -/
theorem mappings_no_occurs (s : List Char) :
    ∀ pr ∈ REWRITE_RULES,
      ¬(pr.1.data <:+: applyMappings TYPO_MAPPINGS (applyMappings UNIT_MAPPINGS s)) := by
  intro pr hm
  rw [← applyMappings_append]
  exact applyMappings_no_occurs REWRITE_RULES rewrite_rules_ok s pr hm

set_option maxHeartbeats 1000000 in
/-- C10: because `키로바 → kVA` precedes it, the rule `키로바르 → kVar` can
never fire — deleting it (index 12) does not change the unit-mapping pass
on any string — and `normalize_text` rewrites `100키로바르` to `100kVA르`,
not `100kVar`. -/
theorem C10_kVar_rule_dead :
    (∀ s : List Char, applyMappings UNIT_MAPPINGS s =
        applyMappings (UNIT_MAPPINGS.eraseIdx 12) s) ∧
      normalize_text "100키로바르" = "100kVA르" := by
  constructor
  · intro s
    have hsplit : UNIT_MAPPINGS =
        (UNIT_MAPPINGS.take 12 ++ [("키로바르", "kVar")]) ++ UNIT_MAPPINGS.drop 13 := by
      decide
    have hsplit2 : UNIT_MAPPINGS.eraseIdx 12 =
        UNIT_MAPPINGS.take 12 ++ UNIT_MAPPINGS.drop 13 := by decide
    rw [hsplit2]
    conv_lhs => rw [hsplit]
    rw [applyMappings_append, applyMappings_append, applyMappings_append]
    refine congrArg (applyMappings (UNIT_MAPPINGS.drop 13)) ?_
    rw [applyMappings_singleton]
    apply repAll_id _ _ le_rfl
    have h1 : ¬("키로바".data <:+: applyMappings (UNIT_MAPPINGS.take 12) s) :=
      applyMappings_no_occurs _ (by decide) s ("키로바", "kVA") (by decide)
    intro hc
    apply h1
    have hpre : "키로바".data <+: "키로바르".data := by decide
    exact hpre.isInfix.trans hc
  · decide

/-! ### Character-class lemmas -/

theorem isWs_elim {c : Char} (h : isWs c = true) :
    c = ' ' ∨ c = '\t' ∨ c = '\n' ∨ c = '\r' ∨ c = '\x0b' ∨ c = '\x0c' := by
  simpa [isWs, or_assoc] using h

theorem isDig_ne_char {c : Char} (h : isDig c = true) {x : Char}
    (hx : isDig x = false) : c ≠ x := by
  intro he
  subst he
  rw [h] at hx
  cases hx

theorem isDig_not_ws {c : Char} (h : isDig c = true) : isWs c = false := by
  by_contra hw
  rw [Bool.not_eq_false] at hw
  rcases isWs_elim hw with rfl | rfl | rfl | rfl | rfl | rfl <;> cases h

theorem isDig_not_pP {c : Char} (h : isDig c = true) :
    (c == 'p' || c == 'P') = false := by
  have h1 : c ≠ 'p' := isDig_ne_char h (by decide)
  have h2 : c ≠ 'P' := isDig_ne_char h (by decide)
  simp [h1, h2]

theorem isDig_not_cC {c : Char} (h : isDig c = true) :
    (c == 'c' || c == 'C') = false := by
  have h1 : c ≠ 'c' := isDig_ne_char h (by decide)
  have h2 : c ≠ 'C' := isDig_ne_char h (by decide)
  simp [h1, h2]

/-! ### Unfolding lemmas for `numTail`, `tryPf`, `tryCos` -/

theorem numTail_cons_ws {a : Char} (ha : isWs a = true) (t : List Char) :
    numTail (a :: t) = numTail t := by
  unfold numTail
  rw [List.dropWhile_cons_of_pos ha]

theorem numTail_dropWhile (t : List Char) :
    numTail (t.dropWhile isWs) = numTail t := by
  unfold numTail
  rw [List.dropWhile_idempotent]

theorem numTail_cons_eq (t : List Char) :
    numTail ('=' :: t) = digitHead (t.dropWhile isWs) := by
  unfold numTail
  rw [List.dropWhile_cons_of_neg (by decide)]
  dsimp only
  rw [if_pos rfl]

theorem numTail_cons_other {a : Char} (ha : isWs a = false) (ha2 : a ≠ '=')
    (t : List Char) : numTail (a :: t) = digitHead (a :: t) := by
  unfold numTail
  rw [List.dropWhile_cons_of_neg (by simp [ha])]
  dsimp only
  rw [if_neg ha2]

theorem tryPf_none_of_head {c : Char} (h : (c == 'p' || c == 'P') = false)
    (t : List Char) : tryPf (c :: t) = none := by
  cases t with
  | nil => rfl
  | cons c2 t2 =>
    show (if isPfStart c c2 then numTail t2 else none) = none
    rw [if_neg]
    unfold isPfStart
    rw [h, Bool.false_and]
    exact Bool.false_ne_true

theorem tryCos_none_of_head {c : Char} (h : (c == 'c' || c == 'C') = false)
    (t : List Char) : tryCos (c :: t) = none := by
  cases t with
  | nil => rfl
  | cons c2 t2 =>
    cases t2 with
    | nil => rfl
    | cons c3 t3 =>
      show (if isCosStart c c2 c3 then numTail t3 else none) = none
      rw [if_neg]
      unfold isCosStart
      rw [h, Bool.false_and]
      exact Bool.false_ne_true

theorem digitHead_digit {t rem : List Char} {d : Char}
    (h : digitHead t = some (d, rem)) : isDig d = true := by
  cases t with
  | nil => cases h
  | cons c cs =>
    by_cases hd : isDig c = true
    · simp only [digitHead, if_pos hd] at h
      obtain ⟨rfl, -⟩ := Prod.mk.injEq .. ▸ Option.some_inj.mp h
      exact hd
    · simp [digitHead, hd] at h

theorem numTail_digit {t rem : List Char} {d : Char}
    (h : numTail t = some (d, rem)) : isDig d = true := by
  unfold numTail at h
  cases hdw : t.dropWhile isWs with
  | nil => rw [hdw] at h; cases h
  | cons c t2 =>
    rw [hdw] at h
    dsimp only at h
    by_cases hc : c = '='
    · rw [if_pos hc] at h
      exact digitHead_digit h
    · rw [if_neg hc] at h
      exact digitHead_digit h

theorem tryPf_digit {s rem : List Char} {d : Char}
    (h : tryPf s = some (d, rem)) : isDig d = true := by
  match s with
  | [] => cases h
  | [c1] => cases h
  | c1 :: c2 :: rest =>
    by_cases hp : isPfStart c1 c2 = true
    · simp only [tryPf, if_pos hp] at h
      exact numTail_digit h
    · simp [tryPf, hp] at h

theorem tryCos_digit {s rem : List Char} {d : Char}
    (h : tryCos s = some (d, rem)) : isDig d = true := by
  match s with
  | [] => cases h
  | [c1] => cases h
  | [c1, c2] => cases h
  | c1 :: c2 :: c3 :: rest =>
    by_cases hp : isCosStart c1 c2 c3 = true
    · simp only [tryCos, if_pos hp] at h
      exact numTail_digit h
    · simp [tryCos, hp] at h

/-! ### Monotonicity of the shorthand matchers under appending -/

theorem dropWhile_append_of_ne_nil {p : Char → Bool} :
    ∀ (v e : List Char), v.dropWhile p ≠ [] →
      (v ++ e).dropWhile p = v.dropWhile p ++ e := by
  intro v
  induction v with
  | nil => intro e h; exact absurd rfl h
  | cons a v' ih =>
    intro e h
    by_cases hp : p a = true
    · rw [List.dropWhile_cons_of_pos hp] at h ⊢
      rw [List.cons_append, List.dropWhile_cons_of_pos hp]
      exact ih e h
    · rw [List.dropWhile_cons_of_neg hp] at h ⊢
      rw [List.cons_append, List.dropWhile_cons_of_neg hp]

theorem digitHead_mono {v rem : List Char} {d : Char}
    (h : digitHead v = some (d, rem)) (e : List Char) :
    digitHead (v ++ e) = some (d, rem ++ e) := by
  cases v with
  | nil => cases h
  | cons c cs =>
    by_cases hd : isDig c = true
    · simp only [digitHead, if_pos hd] at h
      obtain ⟨rfl, rfl⟩ := Prod.mk.injEq .. ▸ Option.some_inj.mp h
      rw [List.cons_append]
      simp [digitHead, hd]
    · simp [digitHead, hd] at h

theorem numTail_mono {v rem : List Char} {d : Char}
    (h : numTail v = some (d, rem)) (e : List Char) :
    numTail (v ++ e) = some (d, rem ++ e) := by
  have hne : v.dropWhile isWs ≠ [] := by
    intro hnil
    unfold numTail at h
    rw [hnil] at h
    cases h
  unfold numTail at h ⊢
  rw [dropWhile_append_of_ne_nil v e hne]
  cases hdw : v.dropWhile isWs with
  | nil => exact absurd hdw hne
  | cons c t2 =>
    rw [hdw] at h
    rw [List.cons_append]
    dsimp only at h ⊢
    by_cases hc : c = '='
    · rw [if_pos hc] at h ⊢
      have hne2 : t2.dropWhile isWs ≠ [] := by
        intro hnil
        rw [hnil] at h
        cases h
      rw [dropWhile_append_of_ne_nil t2 e hne2]
      exact digitHead_mono h e
    · rw [if_neg hc] at h ⊢
      have := digitHead_mono h e
      rw [List.cons_append] at this
      exact this

theorem tryPf_mono {w rem : List Char} {d : Char}
    (h : tryPf w = some (d, rem)) (e : List Char) :
    tryPf (w ++ e) = some (d, rem ++ e) := by
  match w with
  | [] => cases h
  | [c1] => cases h
  | c1 :: c2 :: rest =>
    by_cases hp : isPfStart c1 c2 = true
    · simp only [tryPf, if_pos hp] at h
      show tryPf (c1 :: c2 :: (rest ++ e)) = _
      simp only [tryPf, if_pos hp]
      exact numTail_mono h e
    · simp [tryPf, hp] at h

theorem tryCos_mono {w rem : List Char} {d : Char}
    (h : tryCos w = some (d, rem)) (e : List Char) :
    tryCos (w ++ e) = some (d, rem ++ e) := by
  match w with
  | [] => cases h
  | [c1] => cases h
  | [c1, c2] => cases h
  | c1 :: c2 :: c3 :: rest =>
    by_cases hp : isCosStart c1 c2 c3 = true
    · simp only [tryCos, if_pos hp] at h
      show tryCos (c1 :: c2 :: c3 :: (rest ++ e)) = _
      simp only [tryCos, if_pos hp]
      exact numTail_mono h e
    · simp [tryCos, hp] at h

theorem tryPf_cons_cons (c c2 : Char) (t : List Char) :
    tryPf (c :: c2 :: t) = if isPfStart c c2 then numTail t else none := rfl

theorem tryCos_cons₃ (c c2 c3 : Char) (t : List Char) :
    tryCos (c :: c2 :: c3 :: t) = if isCosStart c c2 c3 then numTail t else none := rfl

theorem tryPf_none_of_second {c c2 : Char} (h2 : (c2 == 'f' || c2 == 'F') = false)
    (t : List Char) : tryPf (c :: c2 :: t) = none := by
  rw [tryPf_cons_cons, if_neg]
  unfold isPfStart
  rw [h2, Bool.and_false]
  exact Bool.false_ne_true

theorem tryCos_none_of_second {c c2 : Char} (h2 : (c2 == 'o' || c2 == 'O') = false) :
    ∀ t, tryCos (c :: c2 :: t) = none := by
  intro t
  cases t with
  | nil => rfl
  | cons c3 t3 =>
    rw [tryCos_cons₃, if_neg]
    unfold isCosStart
    simp [h2]

theorem tryCos_none_of_third {c c2 c3 : Char} (h3 : (c3 == 's' || c3 == 'S') = false)
    (t : List Char) : tryCos (c :: c2 :: c3 :: t) = none := by
  rw [tryCos_cons₃, if_neg]
  unfold isCosStart
  rw [h3, Bool.and_false]
  exact Bool.false_ne_true

theorem noPf_suffix {s t : List Char} (h : noPf s) (ht : t <:+ s) : noPf t :=
  fun u hu => h u (hu.trans ht)

theorem noCos_suffix {s t : List Char} (h : noCos s) (ht : t <:+ s) : noCos t :=
  fun u hu => h u (hu.trans ht)

/-! ### The `pf` scanner leaves no `pf` match and is sound -/

theorem digitHead_dropWhile_pfScan :
    ∀ n w, w.length ≤ n →
      (digitHead ((pfScan w).dropWhile isWs)).isSome = true →
      (digitHead (w.dropWhile isWs)).isSome = true := by
  intro n
  induction n with
  | zero =>
    intro w hlen h
    have hw : w = [] := List.length_eq_zero.mp (Nat.le_zero.mp hlen)
    subst hw
    exact h
  | succ m ih =>
    intro w hlen h
    cases w with
    | nil => exact h
    | cons a w' =>
      rw [pfScan_cons] at h
      cases htry : tryPf (a :: w') with
      | some v =>
        obtain ⟨d, rem⟩ := v
        rw [htry] at h
        dsimp only at h
        rw [List.dropWhile_cons_of_neg (by decide)] at h
        rw [show ∀ X : List Char, digitHead ('역' :: X) = none from fun X => rfl] at h
        cases h
      | none =>
        rw [htry] at h
        dsimp only at h
        by_cases ha : isWs a = true
        · rw [List.dropWhile_cons_of_pos ha] at h
          rw [List.dropWhile_cons_of_pos ha]
          exact ih w' (by simp only [List.length_cons] at hlen; omega) h
        · rw [List.dropWhile_cons_of_neg ha] at h
          rw [List.dropWhile_cons_of_neg ha]
          cases hd : isDig a with
          | false =>
            rw [show digitHead (a :: pfScan w') = none from by
              simp [digitHead, hd]] at h
            cases h
          | true => simp [digitHead, hd]

theorem numTail_pfScan :
    ∀ n u, u.length ≤ n →
      (numTail (pfScan u)).isSome = true → (numTail u).isSome = true := by
  intro n
  induction n with
  | zero =>
    intro u hlen h
    have hu : u = [] := List.length_eq_zero.mp (Nat.le_zero.mp hlen)
    subst hu
    exact h
  | succ m ih =>
    intro u hlen h
    cases u with
    | nil => exact h
    | cons a u' =>
      have hlen' : u'.length ≤ m := by simp only [List.length_cons] at hlen; omega
      rw [pfScan_cons] at h
      cases htry : tryPf (a :: u') with
      | some v =>
        obtain ⟨d, rem⟩ := v
        rw [htry] at h
        dsimp only at h
        rw [numTail_cons_other (by decide) (by decide)] at h
        rw [show ∀ X : List Char, digitHead ('역' :: X) = none from fun X => rfl] at h
        cases h
      | none =>
        rw [htry] at h
        dsimp only at h
        by_cases ha : isWs a = true
        · rw [numTail_cons_ws ha] at h
          rw [numTail_cons_ws ha]
          exact ih u' hlen' h
        · have ha' : isWs a = false := by simpa using ha
          by_cases ha2 : a = '='
          · subst ha2
            rw [numTail_cons_eq] at h
            rw [numTail_cons_eq]
            exact digitHead_dropWhile_pfScan u'.length u' le_rfl h
          · rw [numTail_cons_other ha' ha2] at h
            rw [numTail_cons_other ha' ha2]
            cases hd : isDig a with
            | false =>
              rw [show digitHead (a :: pfScan u') = none from by
                simp [digitHead, hd]] at h
              cases h
            | true => simp [digitHead, hd]

theorem tryPf_cons_pfScan (t : List Char) (c : Char)
    (h : (tryPf (c :: pfScan t)).isSome = true) :
    (tryPf (c :: t)).isSome = true := by
  cases t with
  | nil => exact h
  | cons c2 t2 =>
    rw [pfScan_cons] at h
    cases htry : tryPf (c2 :: t2) with
    | some v =>
      obtain ⟨d, rem⟩ := v
      rw [htry] at h
      dsimp only at h
      rw [tryPf_none_of_second (by decide)] at h
      cases h
    | none =>
      rw [htry] at h
      dsimp only at h
      by_cases hp : isPfStart c c2 = true
      · rw [tryPf_cons_cons, if_pos hp] at h
        rw [tryPf_cons_cons, if_pos hp]
        exact numTail_pfScan t2.length t2 le_rfl h
      · rw [tryPf_cons_cons, if_neg hp] at h
        cases h

theorem pfScan_noPf : ∀ n s, s.length ≤ n → noPf (pfScan s) := by
  intro n
  induction n with
  | zero =>
    intro s hlen
    have hs : s = [] := List.length_eq_zero.mp (Nat.le_zero.mp hlen)
    subst hs
    intro u hu
    rw [List.suffix_nil.mp hu]
    rfl
  | succ m ih =>
    intro s hlen
    cases s with
    | nil =>
      intro u hu
      rw [List.suffix_nil.mp hu]
      rfl
    | cons c cs =>
      rw [pfScan_cons]
      cases htry : tryPf (c :: cs) with
      | some v =>
        obtain ⟨d, rem⟩ := v
        have hdig := tryPf_digit htry
        have hrem : rem.length ≤ m := by
          have := (tryPf_rem htry).2
          simp only [List.length_cons] at this hlen
          omega
        intro u hu
        rcases List.suffix_cons_iff.mp hu with rfl | hu1
        · exact tryPf_none_of_head (by decide) _
        rcases List.suffix_cons_iff.mp hu1 with rfl | hu2
        · exact tryPf_none_of_head (by decide) _
        rcases List.suffix_cons_iff.mp hu2 with rfl | hu3
        · exact tryPf_none_of_head (by decide) _
        rcases List.suffix_cons_iff.mp hu3 with rfl | hu4
        · exact tryPf_none_of_head (isDig_not_pP hdig) _
        · exact ih rem hrem u hu4
      | none =>
        have hcs : cs.length ≤ m := by simp only [List.length_cons] at hlen; omega
        intro u hu
        rcases List.suffix_cons_iff.mp hu with rfl | hu1
        · cases hres : tryPf (c :: pfScan cs) with
          | none => rfl
          | some v =>
            have h2 := tryPf_cons_pfScan cs c (by rw [hres]; rfl)
            rw [htry] at h2
            cases h2
        · exact ih cs hcs u hu1

theorem pfScan_id : ∀ n s, s.length ≤ n → noPf s → pfScan s = s := by
  intro n
  induction n with
  | zero =>
    intro s hlen _
    have hs : s = [] := List.length_eq_zero.mp (Nat.le_zero.mp hlen)
    subst hs
    rfl
  | succ m ih =>
    intro s hlen hno
    cases s with
    | nil => rfl
    | cons c cs =>
      rw [pfScan_cons, hno (c :: cs) (List.suffix_refl _)]
      dsimp only
      rw [ih cs (by simp only [List.length_cons] at hlen; omega)
        (noPf_suffix hno (List.suffix_cons c cs))]

/-! ### The `cos` scanner leaves no `cos` match, keeps `pf`-freedom -/

theorem digitHead_dropWhile_cosScan :
    ∀ n w, w.length ≤ n →
      (digitHead ((cosScan w).dropWhile isWs)).isSome = true →
      (digitHead (w.dropWhile isWs)).isSome = true := by
  intro n
  induction n with
  | zero =>
    intro w hlen h
    have hw : w = [] := List.length_eq_zero.mp (Nat.le_zero.mp hlen)
    subst hw
    exact h
  | succ m ih =>
    intro w hlen h
    cases w with
    | nil => exact h
    | cons a w' =>
      rw [cosScan_cons] at h
      cases htry : tryCos (a :: w') with
      | some v =>
        obtain ⟨d, rem⟩ := v
        rw [htry] at h
        dsimp only at h
        rw [List.dropWhile_cons_of_neg (by decide)] at h
        rw [show ∀ X : List Char, digitHead ('c' :: X) = none from fun X => rfl] at h
        cases h
      | none =>
        rw [htry] at h
        dsimp only at h
        by_cases ha : isWs a = true
        · rw [List.dropWhile_cons_of_pos ha] at h
          rw [List.dropWhile_cons_of_pos ha]
          exact ih w' (by simp only [List.length_cons] at hlen; omega) h
        · rw [List.dropWhile_cons_of_neg ha] at h
          rw [List.dropWhile_cons_of_neg ha]
          cases hd : isDig a with
          | false =>
            rw [show digitHead (a :: cosScan w') = none from by
              simp [digitHead, hd]] at h
            cases h
          | true => simp [digitHead, hd]

theorem numTail_cosScan :
    ∀ n u, u.length ≤ n →
      (numTail (cosScan u)).isSome = true → (numTail u).isSome = true := by
  intro n
  induction n with
  | zero =>
    intro u hlen h
    have hu : u = [] := List.length_eq_zero.mp (Nat.le_zero.mp hlen)
    subst hu
    exact h
  | succ m ih =>
    intro u hlen h
    cases u with
    | nil => exact h
    | cons a u' =>
      have hlen' : u'.length ≤ m := by simp only [List.length_cons] at hlen; omega
      rw [cosScan_cons] at h
      cases htry : tryCos (a :: u') with
      | some v =>
        obtain ⟨d, rem⟩ := v
        rw [htry] at h
        dsimp only at h
        rw [numTail_cons_other (by decide) (by decide)] at h
        rw [show ∀ X : List Char, digitHead ('c' :: X) = none from fun X => rfl] at h
        cases h
      | none =>
        rw [htry] at h
        dsimp only at h
        by_cases ha : isWs a = true
        · rw [numTail_cons_ws ha] at h
          rw [numTail_cons_ws ha]
          exact ih u' hlen' h
        · have ha' : isWs a = false := by simpa using ha
          by_cases ha2 : a = '='
          · subst ha2
            rw [numTail_cons_eq] at h
            rw [numTail_cons_eq]
            exact digitHead_dropWhile_cosScan u'.length u' le_rfl h
          · rw [numTail_cons_other ha' ha2] at h
            rw [numTail_cons_other ha' ha2]
            cases hd : isDig a with
            | false =>
              rw [show digitHead (a :: cosScan u') = none from by
                simp [digitHead, hd]] at h
              cases h
            | true => simp [digitHead, hd]

theorem tryCos_cons_cosScan (t : List Char) (c : Char)
    (h : (tryCos (c :: cosScan t)).isSome = true) :
    (tryCos (c :: t)).isSome = true := by
  cases t with
  | nil => exact h
  | cons c2 t2 =>
    rw [cosScan_cons] at h
    cases htry : tryCos (c2 :: t2) with
    | some v =>
      obtain ⟨d, rem⟩ := v
      rw [htry] at h
      dsimp only at h
      rw [tryCos_none_of_second (by decide)] at h
      cases h
    | none =>
      rw [htry] at h
      dsimp only at h
      cases t2 with
      | nil =>
        rw [show cosScan [] = ([] : List Char) from rfl] at h
        exact absurd h (Bool.false_ne_true)
      | cons c3 t3 =>
        rw [cosScan_cons] at h
        cases htry3 : tryCos (c3 :: t3) with
        | some v =>
          obtain ⟨d, rem⟩ := v
          rw [htry3] at h
          dsimp only at h
          rw [tryCos_none_of_third (by decide)] at h
          cases h
        | none =>
          rw [htry3] at h
          dsimp only at h
          by_cases hp : isCosStart c c2 c3 = true
          · rw [tryCos_cons₃, if_pos hp] at h
            rw [tryCos_cons₃, if_pos hp]
            exact numTail_cosScan t3.length t3 le_rfl h
          · rw [tryCos_cons₃, if_neg hp] at h
            cases h

theorem tryPf_cons_cosScan (t : List Char) (c : Char)
    (h : (tryPf (c :: cosScan t)).isSome = true) :
    (tryPf (c :: t)).isSome = true := by
  cases t with
  | nil => exact h
  | cons c2 t2 =>
    rw [cosScan_cons] at h
    cases htry : tryCos (c2 :: t2) with
    | some v =>
      obtain ⟨d, rem⟩ := v
      rw [htry] at h
      dsimp only at h
      rw [tryPf_none_of_second (by decide)] at h
      cases h
    | none =>
      rw [htry] at h
      dsimp only at h
      by_cases hp : isPfStart c c2 = true
      · rw [tryPf_cons_cons, if_pos hp] at h
        rw [tryPf_cons_cons, if_pos hp]
        exact numTail_cosScan t2.length t2 le_rfl h
      · rw [tryPf_cons_cons, if_neg hp] at h
        cases h

theorem cosScan_noCos : ∀ n s, s.length ≤ n → noCos (cosScan s) := by
  intro n
  induction n with
  | zero =>
    intro s hlen
    have hs : s = [] := List.length_eq_zero.mp (Nat.le_zero.mp hlen)
    subst hs
    intro u hu
    rw [List.suffix_nil.mp hu]
    rfl
  | succ m ih =>
    intro s hlen
    cases s with
    | nil =>
      intro u hu
      rw [List.suffix_nil.mp hu]
      rfl
    | cons c cs =>
      rw [cosScan_cons]
      cases htry : tryCos (c :: cs) with
      | some v =>
        obtain ⟨d, rem⟩ := v
        have hdig := tryCos_digit htry
        have hrem : rem.length ≤ m := by
          have := (tryCos_rem htry).2
          simp only [List.length_cons] at this hlen
          omega
        intro u hu
        rcases List.suffix_cons_iff.mp hu with rfl | hu1
        · rw [tryCos_cons₃, if_pos (by decide)]
          rw [numTail_cons_other (by decide) (by decide)]
          rfl
        rcases List.suffix_cons_iff.mp hu1 with rfl | hu2
        · exact tryCos_none_of_head (by decide) _
        rcases List.suffix_cons_iff.mp hu2 with rfl | hu3
        · exact tryCos_none_of_head (by decide) _
        rcases List.suffix_cons_iff.mp hu3 with rfl | hu4
        · exact tryCos_none_of_head (by decide) _
        rcases List.suffix_cons_iff.mp hu4 with rfl | hu5
        · exact tryCos_none_of_head (by decide) _
        rcases List.suffix_cons_iff.mp hu5 with rfl | hu6
        · exact tryCos_none_of_head (by decide) _
        rcases List.suffix_cons_iff.mp hu6 with rfl | hu7
        · exact tryCos_none_of_head (by decide) _
        rcases List.suffix_cons_iff.mp hu7 with rfl | hu8
        · exact tryCos_none_of_head (isDig_not_cC hdig) _
        · exact ih rem hrem u hu8
      | none =>
        have hcs : cs.length ≤ m := by simp only [List.length_cons] at hlen; omega
        intro u hu
        rcases List.suffix_cons_iff.mp hu with rfl | hu1
        · cases hres : tryCos (c :: cosScan cs) with
          | none => rfl
          | some v =>
            have h2 := tryCos_cons_cosScan cs c (by rw [hres]; rfl)
            rw [htry] at h2
            cases h2
        · exact ih cs hcs u hu1

theorem cosScan_noPf : ∀ n s, s.length ≤ n → noPf s → noPf (cosScan s) := by
  intro n
  induction n with
  | zero =>
    intro s hlen _
    have hs : s = [] := List.length_eq_zero.mp (Nat.le_zero.mp hlen)
    subst hs
    intro u hu
    rw [List.suffix_nil.mp hu]
    rfl
  | succ m ih =>
    intro s hlen hno
    cases s with
    | nil =>
      intro u hu
      rw [List.suffix_nil.mp hu]
      rfl
    | cons c cs =>
      rw [cosScan_cons]
      cases htry : tryCos (c :: cs) with
      | some v =>
        obtain ⟨d, rem⟩ := v
        have hdig := tryCos_digit htry
        have hrem : rem.length ≤ m := by
          have := (tryCos_rem htry).2
          simp only [List.length_cons] at this hlen
          omega
        have hnorem : noPf rem := noPf_suffix hno (tryCos_rem htry).1
        intro u hu
        rcases List.suffix_cons_iff.mp hu with rfl | hu1
        · exact tryPf_none_of_head (by decide) _
        rcases List.suffix_cons_iff.mp hu1 with rfl | hu2
        · exact tryPf_none_of_head (by decide) _
        rcases List.suffix_cons_iff.mp hu2 with rfl | hu3
        · exact tryPf_none_of_head (by decide) _
        rcases List.suffix_cons_iff.mp hu3 with rfl | hu4
        · exact tryPf_none_of_head (by decide) _
        rcases List.suffix_cons_iff.mp hu4 with rfl | hu5
        · exact tryPf_none_of_head (by decide) _
        rcases List.suffix_cons_iff.mp hu5 with rfl | hu6
        · exact tryPf_none_of_head (by decide) _
        rcases List.suffix_cons_iff.mp hu6 with rfl | hu7
        · exact tryPf_none_of_head (by decide) _
        rcases List.suffix_cons_iff.mp hu7 with rfl | hu8
        · exact tryPf_none_of_head (isDig_not_pP hdig) _
        · exact ih rem hrem hnorem u hu8
      | none =>
        have hcs : cs.length ≤ m := by simp only [List.length_cons] at hlen; omega
        intro u hu
        rcases List.suffix_cons_iff.mp hu with rfl | hu1
        · cases hres : tryPf (c :: cosScan cs) with
          | none => rfl
          | some v =>
            have h2 := tryPf_cons_cosScan cs c (by rw [hres]; rfl)
            rw [hno (c :: cs) (List.suffix_refl _)] at h2
            cases h2
        · exact ih cs hcs (noPf_suffix hno (List.suffix_cons c cs)) u hu1

theorem cosScan_id : ∀ n s, s.length ≤ n → noCos s → cosScan s = s := by
  intro n
  induction n with
  | zero =>
    intro s hlen _
    have hs : s = [] := List.length_eq_zero.mp (Nat.le_zero.mp hlen)
    subst hs
    rfl
  | succ m ih =>
    intro s hlen hno
    cases s with
    | nil => rfl
    | cons c cs =>
      rw [cosScan_cons, hno (c :: cs) (List.suffix_refl _)]
      dsimp only
      rw [ih cs (by simp only [List.length_cons] at hlen; omega)
        (noCos_suffix hno (List.suffix_cons c cs))]

/-! ### The scanners cannot create or destroy literal-pattern occurrences -/

theorem suffix_quad_mem_last {u : List Char} {a b c d : Char}
    (h : u <:+ [a, b, c, d]) (hne : u ≠ []) : d ∈ u := by
  rcases List.suffix_cons_iff.mp h with rfl | h1
  · simp
  rcases List.suffix_cons_iff.mp h1 with rfl | h2
  · simp
  rcases List.suffix_cons_iff.mp h2 with rfl | h3
  · simp
  rcases List.suffix_cons_iff.mp h3 with rfl | h4
  · simp
  · rw [List.suffix_nil.mp h4] at hne
    exact absurd rfl hne

theorem suffix_oct_mem_last {u : List Char} {a b c d e f g k : Char}
    (h : u <:+ [a, b, c, d, e, f, g, k]) (hne : u ≠ []) : k ∈ u := by
  rcases List.suffix_cons_iff.mp h with rfl | h1
  · simp
  rcases List.suffix_cons_iff.mp h1 with rfl | h2
  · simp
  rcases List.suffix_cons_iff.mp h2 with rfl | h3
  · simp
  rcases List.suffix_cons_iff.mp h3 with rfl | h4
  · simp
  rcases List.suffix_cons_iff.mp h4 with rfl | h5
  · simp
  rcases List.suffix_cons_iff.mp h5 with rfl | h6
  · simp
  rcases List.suffix_cons_iff.mp h6 with rfl | h7
  · simp
  rcases List.suffix_cons_iff.mp h7 with rfl | h8
  · simp
  · rw [List.suffix_nil.mp h8] at hne
    exact absurd rfl hne

/-- A nonempty suffix of the pattern `q` that is a prefix of `pfScan s` is
a prefix of `s`. -/
theorem pfScan_prefix_rev {q : List Char} (hs : pfSafe q) :
    ∀ n s v, s.length ≤ n → v ≠ [] → v <:+ q → v <+: pfScan s → v <+: s := by
  intro n
  induction n with
  | zero =>
    intro s v hlen hv _ hpre
    have h0 : s = [] := List.length_eq_zero.mp (Nat.le_zero.mp hlen)
    subst h0
    exact absurd (List.prefix_nil.mp hpre) hv
  | succ m ih =>
    intro s v hlen hv hvq hpre
    cases s with
    | nil => exact absurd (List.prefix_nil.mp hpre) hv
    | cons c cs =>
      rw [pfScan_cons] at hpre
      cases htry : tryPf (c :: cs) with
      | some w =>
        obtain ⟨d, rem⟩ := w
        rw [htry] at hpre
        dsimp only at hpre
        exfalso
        cases v with
        | nil => exact hv rfl
        | cons a v1 =>
          rw [List.cons_prefix_cons] at hpre
          obtain ⟨rfl, hp1⟩ := hpre
          cases v1 with
          | nil => exact hs.2.2.2.1 hvq
          | cons b v2 =>
            rw [List.cons_prefix_cons] at hp1
            obtain ⟨rfl, hp2⟩ := hp1
            cases v2 with
            | nil => exact hs.2.2.2.2 hvq
            | cons e v3 =>
              rw [List.cons_prefix_cons] at hp2
              obtain ⟨rfl, _⟩ := hp2
              have hmem : ' ' ∈ '역' :: '률' :: ' ' :: v3 := by simp
              have := (hs.2.1 ' ' (hvq.subset hmem)).1
              exact absurd this (by decide)
      | none =>
        rw [htry] at hpre
        dsimp only at hpre
        cases v with
        | nil => exact absurd rfl hv
        | cons a v' =>
          rw [List.cons_prefix_cons] at hpre
          obtain ⟨rfl, hv'⟩ := hpre
          by_cases hv'nil : v' = []
          · subst hv'nil
            exact List.cons_prefix_cons.mpr ⟨rfl, List.nil_prefix⟩
          · have hlen' : cs.length ≤ m := by
              simp only [List.length_cons] at hlen; omega
            exact List.cons_prefix_cons.mpr
              ⟨rfl, ih cs v' hlen' hv'nil ((List.suffix_cons a v').trans hvq) hv'⟩

/-- `pfScan` cannot introduce an occurrence of a `pfSafe` pattern. -/
theorem pfScan_keeps {q : List Char} (hs : pfSafe q) :
    ∀ n s, s.length ≤ n → ¬(q <:+: s) → ¬(q <:+: pfScan s) := by
  intro n
  induction n with
  | zero =>
    intro s hlen _ h
    have h0 : s = [] := List.length_eq_zero.mp (Nat.le_zero.mp hlen)
    subst h0
    exact hs.1 (List.infix_nil.mp h)
  | succ m ih =>
    intro s hlen hocc h
    cases s with
    | nil => exact hs.1 (List.infix_nil.mp h)
    | cons c cs =>
      rw [pfScan_cons] at h
      cases htry : tryPf (c :: cs) with
      | some w =>
        obtain ⟨d, rem⟩ := w
        rw [htry] at h
        dsimp only at h
        have hdig := tryPf_digit htry
        have h' : q <:+: ['역', '률', ' ', d] ++ pfScan rem := h
        have hrem : rem.length ≤ m := by
          have := (tryPf_rem htry).2
          simp only [List.length_cons] at this hlen
          omega
        have hremno : ¬(q <:+: rem) := fun hc =>
          hocc (hc.trans (tryPf_rem htry).1.isInfix)
        rcases infix_append_split h' with h1 | h2 | ⟨u, v, hu, _, huv, hus, _⟩
        · -- q inside the quad insertion
          have h'' : q <:+: ['역', '률'] ++ [' ', d] := h1
          rcases infix_append_split h'' with g1 | g2 | ⟨u, v, hu, hvne, huv, _, hvp⟩
          · exact hs.2.2.1 g1
          · cases q with
            | nil => exact hs.1 rfl
            | cons x q' =>
              have hx : x ∈ [' ', d] := g2.subset (List.mem_cons_self x q')
              rcases List.mem_cons.mp hx with rfl | hx2
              · exact absurd (hs.2.1 ' ' (List.mem_cons_self _ _)).1 (by decide)
              · have hxd : x = d := by simpa using hx2
                subst hxd
                exact absurd hdig (by
                  rw [(hs.2.1 x (List.mem_cons_self _ _)).2]
                  exact Bool.false_ne_true)
          · cases v with
            | nil => exact hvne rfl
            | cons y v' =>
              rw [List.cons_prefix_cons] at hvp
              obtain ⟨rfl, -⟩ := hvp
              have : ' ' ∈ q := by
                rw [huv]; exact List.mem_append_right u (List.mem_cons_self _ _)
              exact absurd (hs.2.1 ' ' this).1 (by decide)
        · exact ih rem hrem hremno h2
        · have hd : d ∈ u := suffix_quad_mem_last hus hu
          have : d ∈ q := by
            rw [huv]; exact List.mem_append_left v hd
          exact absurd hdig (by
            rw [(hs.2.1 d this).2]
            exact Bool.false_ne_true)
      | none =>
        rw [htry] at h
        dsimp only at h
        rcases List.infix_cons_iff.mp h with h1 | h2
        · cases q with
          | nil => exact hs.1 rfl
          | cons a q' =>
            rw [List.cons_prefix_cons] at h1
            obtain ⟨rfl, hq'⟩ := h1
            apply hocc
            apply List.IsPrefix.isInfix
            by_cases hq'nil : q' = []
            · subst hq'nil
              exact List.cons_prefix_cons.mpr ⟨rfl, List.nil_prefix⟩
            · exact List.cons_prefix_cons.mpr
                ⟨rfl, pfScan_prefix_rev hs cs.length cs q' le_rfl hq'nil
                  (List.suffix_cons a q') hq'⟩
        · have hlen' : cs.length ≤ m := by
            simp only [List.length_cons] at hlen; omega
          exact ih cs hlen' (fun hc => hocc (List.infix_cons hc)) h2

theorem cosSafe_not_mem {q : List Char} (hs : cosSafe q) {d : Char}
    (hd : isDig d = true) {x : Char} (hxq : x ∈ q)
    (hxi : x ∈ ['c', 'o', 's', 'θ', ' ', '=', ' ', d]) : False := by
  obtain ⟨hw, hdg, hc, ho, hss, hθ, he⟩ := hs.2 x hxq
  simp only [List.mem_cons, List.not_mem_nil, or_false] at hxi
  rcases hxi with rfl | rfl | rfl | rfl | rfl | rfl | rfl | rfl
  · exact hc rfl
  · exact ho rfl
  · exact hss rfl
  · exact hθ rfl
  · exact absurd hw (by decide)
  · exact he rfl
  · exact absurd hw (by decide)
  · rw [hdg] at hd
    cases hd

/-- A nonempty suffix of a `cosSafe` pattern that is a prefix of
`cosScan s` is a prefix of `s`. -/
theorem cosScan_prefix_rev {q : List Char} (hs : cosSafe q) :
    ∀ n s v, s.length ≤ n → v ≠ [] → v <:+ q → v <+: cosScan s → v <+: s := by
  intro n
  induction n with
  | zero =>
    intro s v hlen hv _ hpre
    have h0 : s = [] := List.length_eq_zero.mp (Nat.le_zero.mp hlen)
    subst h0
    exact absurd (List.prefix_nil.mp hpre) hv
  | succ m ih =>
    intro s v hlen hv hvq hpre
    cases s with
    | nil => exact absurd (List.prefix_nil.mp hpre) hv
    | cons c cs =>
      rw [cosScan_cons] at hpre
      cases htry : tryCos (c :: cs) with
      | some w =>
        obtain ⟨d, rem⟩ := w
        rw [htry] at hpre
        dsimp only at hpre
        exfalso
        cases v with
        | nil => exact hv rfl
        | cons a v1 =>
          rw [List.cons_prefix_cons] at hpre
          obtain ⟨rfl, -⟩ := hpre
          exact cosSafe_not_mem hs (tryCos_digit htry)
            (hvq.subset (List.mem_cons_self _ _)) (by simp)
      | none =>
        rw [htry] at hpre
        dsimp only at hpre
        cases v with
        | nil => exact absurd rfl hv
        | cons a v' =>
          rw [List.cons_prefix_cons] at hpre
          obtain ⟨rfl, hv'⟩ := hpre
          by_cases hv'nil : v' = []
          · subst hv'nil
            exact List.cons_prefix_cons.mpr ⟨rfl, List.nil_prefix⟩
          · have hlen' : cs.length ≤ m := by
              simp only [List.length_cons] at hlen; omega
            exact List.cons_prefix_cons.mpr
              ⟨rfl, ih cs v' hlen' hv'nil ((List.suffix_cons a v').trans hvq) hv'⟩

/-- `cosScan` cannot introduce an occurrence of a `cosSafe` pattern. -/
theorem cosScan_keeps {q : List Char} (hs : cosSafe q) :
    ∀ n s, s.length ≤ n → ¬(q <:+: s) → ¬(q <:+: cosScan s) := by
  intro n
  induction n with
  | zero =>
    intro s hlen _ h
    have h0 : s = [] := List.length_eq_zero.mp (Nat.le_zero.mp hlen)
    subst h0
    exact hs.1 (List.infix_nil.mp h)
  | succ m ih =>
    intro s hlen hocc h
    cases s with
    | nil => exact hs.1 (List.infix_nil.mp h)
    | cons c cs =>
      rw [cosScan_cons] at h
      cases htry : tryCos (c :: cs) with
      | some w =>
        obtain ⟨d, rem⟩ := w
        rw [htry] at h
        dsimp only at h
        have hdig := tryCos_digit htry
        have h' : q <:+: ['c', 'o', 's', 'θ', ' ', '=', ' ', d] ++ cosScan rem := h
        have hrem : rem.length ≤ m := by
          have := (tryCos_rem htry).2
          simp only [List.length_cons] at this hlen
          omega
        have hremno : ¬(q <:+: rem) := fun hc =>
          hocc (hc.trans (tryCos_rem htry).1.isInfix)
        rcases infix_append_split h' with h1 | h2 | ⟨u, v, hu, _, huv, hus, _⟩
        · cases q with
          | nil => exact hs.1 rfl
          | cons x q' =>
            exact cosSafe_not_mem hs hdig (List.mem_cons_self x q')
              (h1.subset (List.mem_cons_self x q'))
        · exact ih rem hrem hremno h2
        · cases u with
          | nil => exact hu rfl
          | cons y u' =>
            have hyq : y ∈ q := by
              rw [huv]; exact List.mem_append_left v (List.mem_cons_self _ _)
            exact cosSafe_not_mem hs hdig hyq (hus.subset (List.mem_cons_self _ _))
      | none =>
        rw [htry] at h
        dsimp only at h
        rcases List.infix_cons_iff.mp h with h1 | h2
        · cases q with
          | nil => exact hs.1 rfl
          | cons a q' =>
            rw [List.cons_prefix_cons] at h1
            obtain ⟨rfl, hq'⟩ := h1
            apply hocc
            apply List.IsPrefix.isInfix
            by_cases hq'nil : q' = []
            · subst hq'nil
              exact List.cons_prefix_cons.mpr ⟨rfl, List.nil_prefix⟩
            · exact List.cons_prefix_cons.mpr
                ⟨rfl, cosScan_prefix_rev hs cs.length cs q' le_rfl hq'nil
                  (List.suffix_cons a q') hq'⟩
        · have hlen' : cs.length ≤ m := by
            simp only [List.length_cons] at hlen; omega
          exact ih cs hlen' (fun hc => hocc (List.infix_cons hc)) h2

/-! ### Whitespace collapse: canonical form, identity, and preservation -/

theorem dropWhile_ws_head :
    ∀ (l : List Char) {x : Char} {X : List Char},
      l.dropWhile isWs = x :: X → isWs x = false := by
  intro l
  induction l with
  | nil => intro x X h; cases h
  | cons a l' ih =>
    intro x X h
    by_cases ha : isWs a = true
    · rw [List.dropWhile_cons_of_pos ha] at h
      exact ih h
    · rw [List.dropWhile_cons_of_neg ha] at h
      cases h
      simpa using ha

theorem digitHead_dropWhile_collapseWs :
    ∀ n w, w.length ≤ n →
      (digitHead ((collapseWs w).dropWhile isWs)).isSome = true →
      (digitHead (w.dropWhile isWs)).isSome = true := by
  intro n
  induction n with
  | zero =>
    intro w hlen h
    have hw : w = [] := List.length_eq_zero.mp (Nat.le_zero.mp hlen)
    subst hw
    exact h
  | succ m ih =>
    intro w hlen h
    cases w with
    | nil => exact h
    | cons a w' =>
      have hlen' : w'.length ≤ m := by simp only [List.length_cons] at hlen; omega
      rw [collapseWs_cons] at h
      by_cases ha : isWs a = true
      · rw [if_pos ha] at h
        rw [List.dropWhile_cons_of_pos (by decide)] at h
        have hsub : (w'.dropWhile isWs).length ≤ m := by
          have := List.IsSuffix.length_le (List.dropWhile_suffix isWs (l := w'))
          omega
        have := ih (w'.dropWhile isWs) hsub h
        rw [List.dropWhile_idempotent] at this
        rw [List.dropWhile_cons_of_pos ha]
        exact this
      · rw [if_neg ha] at h
        rw [List.dropWhile_cons_of_neg ha] at h
        rw [List.dropWhile_cons_of_neg ha]
        cases hd : isDig a with
        | false =>
          rw [show digitHead (a :: collapseWs w') = none from by
            simp [digitHead, hd]] at h
          cases h
        | true => simp [digitHead, hd]

theorem numTail_collapseWs :
    ∀ n u, u.length ≤ n →
      (numTail (collapseWs u)).isSome = true → (numTail u).isSome = true := by
  intro n
  induction n with
  | zero =>
    intro u hlen h
    have hu : u = [] := List.length_eq_zero.mp (Nat.le_zero.mp hlen)
    subst hu
    exact h
  | succ m ih =>
    intro u hlen h
    cases u with
    | nil => exact h
    | cons a u' =>
      have hlen' : u'.length ≤ m := by simp only [List.length_cons] at hlen; omega
      rw [collapseWs_cons] at h
      by_cases ha : isWs a = true
      · rw [if_pos ha] at h
        rw [numTail_cons_ws (by decide)] at h
        have hsub : (u'.dropWhile isWs).length ≤ m := by
          have := List.IsSuffix.length_le (List.dropWhile_suffix isWs (l := u'))
          omega
        have := ih (u'.dropWhile isWs) hsub h
        rw [numTail_dropWhile] at this
        rw [numTail_cons_ws ha]
        exact this
      · have ha' : isWs a = false := by simpa using ha
        rw [if_neg ha] at h
        by_cases ha2 : a = '='
        · subst ha2
          rw [numTail_cons_eq] at h
          rw [numTail_cons_eq]
          exact digitHead_dropWhile_collapseWs u'.length u' le_rfl h
        · rw [numTail_cons_other ha' ha2] at h
          rw [numTail_cons_other ha' ha2]
          cases hd : isDig a with
          | false =>
            rw [show digitHead (a :: collapseWs u') = none from by
              simp [digitHead, hd]] at h
            cases h
          | true => simp [digitHead, hd]

theorem tryPf_cons_collapseWs (t : List Char) (c : Char)
    (h : (tryPf (c :: collapseWs t)).isSome = true) :
    (tryPf (c :: t)).isSome = true := by
  cases t with
  | nil => exact h
  | cons a t' =>
    rw [collapseWs_cons] at h
    by_cases ha : isWs a = true
    · rw [if_pos ha] at h
      rw [tryPf_none_of_second (by decide)] at h
      cases h
    · rw [if_neg ha] at h
      by_cases hp : isPfStart c a = true
      · rw [tryPf_cons_cons, if_pos hp] at h
        rw [tryPf_cons_cons, if_pos hp]
        exact numTail_collapseWs t'.length t' le_rfl h
      · rw [tryPf_cons_cons, if_neg hp] at h
        cases h

theorem tryCos_cons_collapseWs (t : List Char) (c : Char)
    (h : (tryCos (c :: collapseWs t)).isSome = true) :
    (tryCos (c :: t)).isSome = true := by
  cases t with
  | nil => exact h
  | cons a t' =>
    rw [collapseWs_cons] at h
    by_cases ha : isWs a = true
    · rw [if_pos ha] at h
      rw [tryCos_none_of_second (by decide)] at h
      cases h
    · rw [if_neg ha] at h
      cases t' with
      | nil =>
        rw [show collapseWs [] = ([] : List Char) from rfl] at h
        exact absurd h Bool.false_ne_true
      | cons b t'' =>
        rw [collapseWs_cons] at h
        by_cases hb : isWs b = true
        · rw [if_pos hb] at h
          rw [tryCos_none_of_third (by decide)] at h
          cases h
        · rw [if_neg hb] at h
          by_cases hp : isCosStart c a b = true
          · rw [tryCos_cons₃, if_pos hp] at h
            rw [tryCos_cons₃, if_pos hp]
            exact numTail_collapseWs t''.length t'' le_rfl h
          · rw [tryCos_cons₃, if_neg hp] at h
            cases h

theorem collapseWs_noPf : ∀ n s, s.length ≤ n → noPf s → noPf (collapseWs s) := by
  intro n
  induction n with
  | zero =>
    intro s hlen _
    have hs : s = [] := List.length_eq_zero.mp (Nat.le_zero.mp hlen)
    subst hs
    intro u hu
    rw [List.suffix_nil.mp hu]
    rfl
  | succ m ih =>
    intro s hlen hno
    cases s with
    | nil =>
      intro u hu
      rw [List.suffix_nil.mp hu]
      rfl
    | cons c cs =>
      have hlen' : cs.length ≤ m := by simp only [List.length_cons] at hlen; omega
      rw [collapseWs_cons]
      by_cases hc : isWs c = true
      · rw [if_pos hc]
        intro u hu
        rcases List.suffix_cons_iff.mp hu with rfl | hu1
        · exact tryPf_none_of_head (by decide) _
        · have hsub : (cs.dropWhile isWs).length ≤ m := by
            have := List.IsSuffix.length_le (List.dropWhile_suffix isWs (l := cs))
            omega
          exact ih (cs.dropWhile isWs) hsub
            (noPf_suffix hno ((List.dropWhile_suffix isWs).trans (List.suffix_cons c cs)))
            u hu1
      · rw [if_neg hc]
        intro u hu
        rcases List.suffix_cons_iff.mp hu with rfl | hu1
        · cases hres : tryPf (c :: collapseWs cs) with
          | none => rfl
          | some v =>
            have h2 := tryPf_cons_collapseWs cs c (by rw [hres]; rfl)
            rw [hno (c :: cs) (List.suffix_refl _)] at h2
            cases h2
        · exact ih cs hlen' (noPf_suffix hno (List.suffix_cons c cs)) u hu1

theorem collapseWs_noCos : ∀ n s, s.length ≤ n → noCos s → noCos (collapseWs s) := by
  intro n
  induction n with
  | zero =>
    intro s hlen _
    have hs : s = [] := List.length_eq_zero.mp (Nat.le_zero.mp hlen)
    subst hs
    intro u hu
    rw [List.suffix_nil.mp hu]
    rfl
  | succ m ih =>
    intro s hlen hno
    cases s with
    | nil =>
      intro u hu
      rw [List.suffix_nil.mp hu]
      rfl
    | cons c cs =>
      have hlen' : cs.length ≤ m := by simp only [List.length_cons] at hlen; omega
      rw [collapseWs_cons]
      by_cases hc : isWs c = true
      · rw [if_pos hc]
        intro u hu
        rcases List.suffix_cons_iff.mp hu with rfl | hu1
        · exact tryCos_none_of_head (by decide) _
        · have hsub : (cs.dropWhile isWs).length ≤ m := by
            have := List.IsSuffix.length_le (List.dropWhile_suffix isWs (l := cs))
            omega
          exact ih (cs.dropWhile isWs) hsub
            (noCos_suffix hno ((List.dropWhile_suffix isWs).trans (List.suffix_cons c cs)))
            u hu1
      · rw [if_neg hc]
        intro u hu
        rcases List.suffix_cons_iff.mp hu with rfl | hu1
        · cases hres : tryCos (c :: collapseWs cs) with
          | none => rfl
          | some v =>
            have h2 := tryCos_cons_collapseWs cs c (by rw [hres]; rfl)
            rw [hno (c :: cs) (List.suffix_refl _)] at h2
            cases h2
        · exact ih cs hlen' (noCos_suffix hno (List.suffix_cons c cs)) u hu1

theorem collapseWs_prefix_rev :
    ∀ n u v, u.length ≤ n → v ≠ [] → (∀ c ∈ v, isWs c = false) →
      v <+: collapseWs u → v <+: u := by
  intro n
  induction n with
  | zero =>
    intro u v hlen hv _ hpre
    have hu : u = [] := List.length_eq_zero.mp (Nat.le_zero.mp hlen)
    subst hu
    exact absurd (List.prefix_nil.mp hpre) hv
  | succ m ih =>
    intro u v hlen hv hch hpre
    cases u with
    | nil => exact absurd (List.prefix_nil.mp hpre) hv
    | cons a u' =>
      have hlen' : u'.length ≤ m := by simp only [List.length_cons] at hlen; omega
      rw [collapseWs_cons] at hpre
      by_cases ha : isWs a = true
      · rw [if_pos ha] at hpre
        cases v with
        | nil => exact absurd rfl hv
        | cons y v' =>
          rw [List.cons_prefix_cons] at hpre
          obtain ⟨rfl, -⟩ := hpre
          exact absurd (hch ' ' (List.mem_cons_self _ _)) (by decide)
      · rw [if_neg ha] at hpre
        cases v with
        | nil => exact absurd rfl hv
        | cons y v' =>
          rw [List.cons_prefix_cons] at hpre
          obtain ⟨rfl, hv'⟩ := hpre
          by_cases hv'nil : v' = []
          · subst hv'nil
            exact List.cons_prefix_cons.mpr ⟨rfl, List.nil_prefix⟩
          · exact List.cons_prefix_cons.mpr
              ⟨rfl, ih u' v' hlen' hv'nil
                (fun c hc => hch c (List.mem_cons_of_mem _ hc)) hv'⟩

theorem collapseWs_keeps {q : List Char} (hqne : q ≠ [])
    (hch : ∀ c ∈ q, isWs c = false) :
    ∀ n s, s.length ≤ n → ¬(q <:+: s) → ¬(q <:+: collapseWs s) := by
  intro n
  induction n with
  | zero =>
    intro s hlen _ h
    have hs : s = [] := List.length_eq_zero.mp (Nat.le_zero.mp hlen)
    subst hs
    exact hqne (List.infix_nil.mp h)
  | succ m ih =>
    intro s hlen hocc h
    cases s with
    | nil => exact hqne (List.infix_nil.mp h)
    | cons c cs =>
      have hlen' : cs.length ≤ m := by simp only [List.length_cons] at hlen; omega
      rw [collapseWs_cons] at h
      by_cases hc : isWs c = true
      · rw [if_pos hc] at h
        rcases List.infix_cons_iff.mp h with h1 | h2
        · cases q with
          | nil => exact hqne rfl
          | cons y q' =>
            rw [List.cons_prefix_cons] at h1
            obtain ⟨rfl, -⟩ := h1
            exact absurd (hch ' ' (List.mem_cons_self _ _)) (by decide)
        · have hsub : (cs.dropWhile isWs).length ≤ m := by
            have := List.IsSuffix.length_le (List.dropWhile_suffix isWs (l := cs))
            omega
          exact ih (cs.dropWhile isWs) hsub
            (fun hcc => hocc (hcc.trans
              ((List.dropWhile_suffix isWs).trans (List.suffix_cons c cs)).isInfix))
            h2
      · rw [if_neg hc] at h
        rcases List.infix_cons_iff.mp h with h1 | h2
        · cases q with
          | nil => exact hqne rfl
          | cons y q' =>
            rw [List.cons_prefix_cons] at h1
            obtain ⟨rfl, hq'⟩ := h1
            apply hocc
            apply List.IsPrefix.isInfix
            by_cases hq'nil : q' = []
            · subst hq'nil
              exact List.cons_prefix_cons.mpr ⟨rfl, List.nil_prefix⟩
            · exact List.cons_prefix_cons.mpr
                ⟨rfl, collapseWs_prefix_rev cs.length cs q' le_rfl hq'nil
                  (fun x hx => hch x (List.mem_cons_of_mem _ hx)) hq'⟩
        · exact ih cs hlen' (fun hcc => hocc (List.infix_cons hcc)) h2

theorem collapseWs_wsCanon : ∀ n s, s.length ≤ n → wsCanon (collapseWs s) = true := by
  intro n
  induction n with
  | zero =>
    intro s hlen
    have hs : s = [] := List.length_eq_zero.mp (Nat.le_zero.mp hlen)
    subst hs
    rfl
  | succ m ih =>
    intro s hlen
    cases s with
    | nil => rfl
    | cons c cs =>
      have hlen' : cs.length ≤ m := by simp only [List.length_cons] at hlen; omega
      rw [collapseWs_cons]
      by_cases hc : isWs c = true
      · rw [if_pos hc]
        cases hX : collapseWs (cs.dropWhile isWs) with
        | nil => decide
        | cons x X' =>
          have hxne : isWs x = false := by
            cases hdw : cs.dropWhile isWs with
            | nil =>
              rw [hdw, collapseWs_nil] at hX
              cases hX
            | cons y R =>
              have hy : isWs y = false := dropWhile_ws_head cs hdw
              rw [hdw, collapseWs_cons, if_neg (by simp [hy])] at hX
              injection hX with h1 _
              rw [← h1]
              exact hy
          have hsub : (cs.dropWhile isWs).length ≤ m := by
            have := List.IsSuffix.length_le (List.dropWhile_suffix isWs (l := cs))
            omega
          have hrec : wsCanon (x :: X') = true := by
            rw [← hX]
            exact ih (cs.dropWhile isWs) hsub
          show ((!isWs ' ' || ((' ' == ' ') && !isWs x)) && wsCanon (x :: X')) = true
          rw [hrec, hxne]
          decide
      · have hc' : isWs c = false := by simpa using hc
        rw [if_neg hc]
        cases hX : collapseWs cs with
        | nil =>
          show (!isWs c || (c == ' ')) = true
          rw [hc']
          rfl
        | cons x X' =>
          have hrec : wsCanon (x :: X') = true := by
            rw [← hX]
            exact ih cs hlen'
          show ((!isWs c || ((c == ' ') && !isWs x)) && wsCanon (x :: X')) = true
          rw [hrec, hc']
          rfl

theorem wsCanon_tail {a : Char} {r : List Char} (h : wsCanon (a :: r) = true) :
    wsCanon r = true := by
  cases r with
  | nil => rfl
  | cons b r' =>
    have h' : ((!isWs a || ((a == ' ') && !isWs b)) && wsCanon (b :: r')) = true := h
    rw [Bool.and_eq_true] at h'
    exact h'.2

theorem collapseWs_id : ∀ n s, s.length ≤ n → wsCanon s = true → collapseWs s = s := by
  intro n
  induction n with
  | zero =>
    intro s hlen _
    have hs : s = [] := List.length_eq_zero.mp (Nat.le_zero.mp hlen)
    subst hs
    rfl
  | succ m ih =>
    intro s hlen hcan
    cases s with
    | nil => rfl
    | cons c cs =>
      have hlen' : cs.length ≤ m := by simp only [List.length_cons] at hlen; omega
      rw [collapseWs_cons]
      by_cases hc : isWs c = true
      · rw [if_pos hc]
        cases cs with
        | nil =>
          have hcan' : (!isWs c || (c == ' ')) = true := hcan
          rw [hc] at hcan'
          have : c = ' ' := by simpa using hcan'
          subst this
          rfl
        | cons b cs' =>
          have hcan' : ((!isWs c || ((c == ' ') && !isWs b)) && wsCanon (b :: cs')) = true :=
            hcan
          rw [Bool.and_eq_true] at hcan'
          obtain ⟨hcond, hrest⟩ := hcan'
          rw [hc] at hcond
          have hcond' : ((c == ' ') && !isWs b) = true := by simpa using hcond
          rw [Bool.and_eq_true] at hcond'
          have hceq : c = ' ' := by simpa using hcond'.1
          have hbne : isWs b = false := by simpa using hcond'.2
          rw [List.dropWhile_cons_of_neg (by simp [hbne])]
          rw [ih (b :: cs') hlen' hrest]
          rw [hceq]
      · rw [if_neg hc]
        rw [ih cs hlen' (wsCanon_tail hcan)]

/-! ### Stripping: structural facts and preservation -/

theorem lstripWs_suffix (s : List Char) : lstripWs s <:+ s :=
  List.dropWhile_suffix isWs

theorem rstripWs_prefix_self (s : List Char) : rstripWs s <+: s := by
  have h := List.reverse_prefix.mpr (List.dropWhile_suffix isWs (l := s.reverse))
  rwa [List.reverse_reverse] at h

theorem rstripWs_noPf {u : List Char} (h : noPf u) : noPf (rstripWs u) := by
  obtain ⟨e, he⟩ := rstripWs_prefix_self u
  intro v hv
  cases hres : tryPf v with
  | none => rfl
  | some w =>
    obtain ⟨d, rem⟩ := w
    exfalso
    obtain ⟨w', hw'⟩ := hv
    have hsuf : v ++ e <:+ u := by
      refine ⟨w', ?_⟩
      rw [← List.append_assoc, hw', he]
    have := tryPf_mono hres e
    rw [h (v ++ e) hsuf] at this
    cases this

theorem rstripWs_noCos {u : List Char} (h : noCos u) : noCos (rstripWs u) := by
  obtain ⟨e, he⟩ := rstripWs_prefix_self u
  intro v hv
  cases hres : tryCos v with
  | none => rfl
  | some w =>
    obtain ⟨d, rem⟩ := w
    exfalso
    obtain ⟨w', hw'⟩ := hv
    have hsuf : v ++ e <:+ u := by
      refine ⟨w', ?_⟩
      rw [← List.append_assoc, hw', he]
    have := tryCos_mono hres e
    rw [h (v ++ e) hsuf] at this
    cases this

theorem pyStrip_noPf {u : List Char} (h : noPf u) : noPf (pyStrip u) :=
  rstripWs_noPf (noPf_suffix h (lstripWs_suffix u))

theorem pyStrip_noCos {u : List Char} (h : noCos u) : noCos (pyStrip u) :=
  rstripWs_noCos (noCos_suffix h (lstripWs_suffix u))

theorem pyStrip_infix_self (s : List Char) : pyStrip s <:+: s :=
  (rstripWs_prefix_self (lstripWs s)).isInfix.trans (lstripWs_suffix s).isInfix

theorem pyStrip_keeps {q s : List Char} (hocc : ¬(q <:+: s)) :
    ¬(q <:+: pyStrip s) :=
  fun h => hocc (h.trans (pyStrip_infix_self s))

theorem wsCanon_suffix {l t : List Char} (ht : t <:+ l) (h : wsCanon l = true) :
    wsCanon t = true := by
  obtain ⟨w, rfl⟩ := ht
  induction w with
  | nil => exact h
  | cons a w' ih =>
    exact ih (wsCanon_tail h)

theorem wsCanon_prefix :
    ∀ (t l : List Char), t <+: l → wsCanon l = true → wsCanon t = true := by
  intro t
  induction t with
  | nil => intro l _ _; rfl
  | cons a t' ih =>
    intro l hp hcan
    cases l with
    | nil => exact absurd (List.prefix_nil.mp hp) (by simp)
    | cons b l' =>
      rw [List.cons_prefix_cons] at hp
      obtain ⟨rfl, hp'⟩ := hp
      cases t' with
      | nil =>
        cases l' with
        | nil => exact hcan
        | cons c l'' =>
          have hcan' : ((!isWs a || ((a == ' ') && !isWs c)) && wsCanon (c :: l'')) = true :=
            hcan
          rw [Bool.and_eq_true] at hcan'
          show (!isWs a || (a == ' ')) = true
          have hor := hcan'.1
          rw [Bool.or_eq_true] at hor
          rcases hor with h1 | h1
          · rw [h1]; rfl
          · rw [Bool.and_eq_true] at h1
            rw [h1.1]
            simp
      | cons a2 t'' =>
        cases l' with
        | nil => exact absurd (List.prefix_nil.mp hp') (by simp)
        | cons b2 l'' =>
          rw [List.cons_prefix_cons] at hp'
          obtain ⟨rfl, hp''⟩ := hp'
          have hcan' : ((!isWs a || ((a == ' ') && !isWs a2)) && wsCanon (a2 :: l'')) = true :=
            hcan
          rw [Bool.and_eq_true] at hcan'
          have hrec : wsCanon (a2 :: t'') = true :=
            ih (a2 :: l'') (List.cons_prefix_cons.mpr ⟨rfl, hp''⟩) hcan'.2
          show ((!isWs a || ((a == ' ') && !isWs a2)) && wsCanon (a2 :: t'')) = true
          rw [Bool.and_eq_true]
          exact ⟨hcan'.1, hrec⟩

theorem pyStrip_wsCanon {s : List Char} (h : wsCanon s = true) :
    wsCanon (pyStrip s) = true :=
  wsCanon_prefix _ _ (rstripWs_prefix_self (lstripWs s)) (wsCanon_suffix (lstripWs_suffix s) h)

theorem prefix_head_eq {t u : List Char} {x : Char} {X : List Char}
    (hp : t <+: u) (ht : t = x :: X) : ∃ U, u = x :: U := by
  subst ht
  cases u with
  | nil => exact absurd (List.prefix_nil.mp hp) (by simp)
  | cons y U =>
    rw [List.cons_prefix_cons] at hp
    exact ⟨U, by rw [hp.1]⟩

theorem lstripWs_of_head_not_ws {u : List Char}
    (h : ∀ x X, u = x :: X → isWs x = false) : lstripWs u = u := by
  cases u with
  | nil => rfl
  | cons x X => exact List.dropWhile_cons_of_neg (by simp [h x X rfl])

theorem rstripWs_idem (u : List Char) : rstripWs (rstripWs u) = rstripWs u := by
  unfold rstripWs
  rw [List.reverse_reverse, List.dropWhile_idempotent]

theorem pyStrip_idem (s : List Char) : pyStrip (pyStrip s) = pyStrip s := by
  have hL : ∀ x X, lstripWs s = x :: X → isWs x = false := fun x X h =>
    dropWhile_ws_head s h
  have hR : ∀ x X, rstripWs (lstripWs s) = x :: X → isWs x = false := by
    intro x X h
    obtain ⟨U, hU⟩ := prefix_head_eq (rstripWs_prefix_self (lstripWs s)) h
    exact hL x U hU
  show rstripWs (lstripWs (rstripWs (lstripWs s))) = rstripWs (lstripWs s)
  rw [lstripWs_of_head_not_ws hR, rstripWs_idem]

/-! ### The normalization pipeline: normal forms and idempotence -/

theorem rules_pfSafe : ∀ pr ∈ REWRITE_RULES, pfSafe pr.1.data := by decide

theorem rules_cosSafe : ∀ pr ∈ REWRITE_RULES, cosSafe pr.1.data := by decide

/-- Every full normalization pass produces a normal form: no rewrite
pattern occurs, no `pf` or `cos` shorthand matches, whitespace is
canonical, and the result is stripped. -/
theorem normalizeData_normalForm (s : List Char) : normalForm (normalizeData s) := by
  have hM := mappings_no_occurs (pyStrip s)
  have h3occ : ∀ pr ∈ REWRITE_RULES, ¬(pr.1.data <:+:
      pfScan (applyMappings TYPO_MAPPINGS (applyMappings UNIT_MAPPINGS (pyStrip s)))) :=
    fun pr hpr => pfScan_keeps (rules_pfSafe pr hpr) _ _ le_rfl (hM pr hpr)
  have h3pf : noPf (pfScan (applyMappings TYPO_MAPPINGS
      (applyMappings UNIT_MAPPINGS (pyStrip s)))) := pfScan_noPf _ _ le_rfl
  have h4occ : ∀ pr ∈ REWRITE_RULES, ¬(pr.1.data <:+:
      cosScan (pfScan (applyMappings TYPO_MAPPINGS
        (applyMappings UNIT_MAPPINGS (pyStrip s))))) :=
    fun pr hpr => cosScan_keeps (rules_cosSafe pr hpr) _ _ le_rfl (h3occ pr hpr)
  have h4pf := cosScan_noPf _ _ le_rfl h3pf
  have h4cos := cosScan_noCos (s := pfScan (applyMappings TYPO_MAPPINGS
    (applyMappings UNIT_MAPPINGS (pyStrip s)))) _ le_rfl
  have h5occ : ∀ pr ∈ REWRITE_RULES, ¬(pr.1.data <:+:
      collapseWs (cosScan (pfScan (applyMappings TYPO_MAPPINGS
        (applyMappings UNIT_MAPPINGS (pyStrip s)))))) :=
    fun pr hpr => collapseWs_keeps (rules_pfSafe pr hpr).1
      (fun c hc => ((rules_pfSafe pr hpr).2.1 c hc).1) _ _ le_rfl (h4occ pr hpr)
  have h5pf := collapseWs_noPf _ _ le_rfl h4pf
  have h5cos := collapseWs_noCos _ _ le_rfl h4cos
  have h5canon := collapseWs_wsCanon (s := cosScan (pfScan (applyMappings TYPO_MAPPINGS
    (applyMappings UNIT_MAPPINGS (pyStrip s))))) _ le_rfl
  exact ⟨fun pr hpr => pyStrip_keeps (h5occ pr hpr), pyStrip_noPf h5pf,
    pyStrip_noCos h5cos, pyStrip_wsCanon h5canon, pyStrip_idem _⟩

theorem data_mk (l : List Char) : (String.mk l).data = l := rfl

theorem normalize_text_data (x : String) :
    (normalize_text x).data = normalizeData x.data := by
  unfold normalize_text
  exact data_mk _

/-- Normalization is the identity on normal forms. -/
theorem normalizeData_id {t : List Char} (h : normalForm t) : normalizeData t = t := by
  obtain ⟨hocc, hpf, hcos, hcanon, hstrip⟩ := h
  unfold normalizeData
  rw [hstrip]
  rw [applyMappings_id UNIT_MAPPINGS t
    (fun pr hpr => hocc pr (List.mem_append_left _ hpr))]
  rw [applyMappings_id TYPO_MAPPINGS t
    (fun pr hpr => hocc pr (List.mem_append_right _ hpr))]
  rw [pfScan_id t.length t le_rfl hpf]
  rw [cosScan_id t.length t le_rfl hcos]
  rw [collapseWs_id t.length t le_rfl hcanon]
  exact hstrip

/-- C3: the normalizer is idempotent — for every string `x`,
`normalize_text (normalize_text x) = normalize_text x`; no rewrite rule
(unit mapping, typo mapping, `pf`/`cos` shorthand, whitespace collapse)
re-triggers on the output of a full normalization pass. -/
theorem C3_normalize_idempotent (x : String) :
    normalize_text (normalize_text x) = normalize_text x := by
  have h := normalizeData_id (normalizeData_normalForm x.data)
  apply String.ext
  rw [normalize_text_data, normalize_text_data]
  exact h

/-! ### Strings on which no normalization rule fires -/

theorem noPf_of_chars {t : List Char}
    (h : ∀ x ∈ t, (x == 'p' || x == 'P') = false) : noPf t := by
  intro u hu
  cases u with
  | nil => rfl
  | cons c u' =>
    exact tryPf_none_of_head (h c (hu.subset (List.mem_cons_self c u'))) u'

theorem noCos_of_chars {t : List Char}
    (h : ∀ x ∈ t, (x == 'c' || x == 'C') = false) : noCos t := by
  intro u hu
  cases u with
  | nil => rfl
  | cons c u' =>
    exact tryCos_none_of_head (h c (hu.subset (List.mem_cons_self c u'))) u'

theorem wsCanon_of_no_ws :
    ∀ (t : List Char), (∀ x ∈ t, isWs x = false) → wsCanon t = true
  | [], _ => rfl
  | [c], h => by
    show (!isWs c || (c == ' ')) = true
    rw [h c (List.mem_singleton.mpr rfl)]
    rfl
  | c :: d :: t', h => by
    show ((!isWs c || ((c == ' ') && !isWs d)) && wsCanon (d :: t')) = true
    rw [h c (List.mem_cons_self _ _),
      wsCanon_of_no_ws (d :: t') (fun x hx => h x (List.mem_cons_of_mem _ hx))]
    rfl

theorem pyStrip_of_no_ws {t : List Char} (h : ∀ x ∈ t, isWs x = false) :
    pyStrip t = t := by
  have hl : lstripWs t = t := by
    cases t with
    | nil => rfl
    | cons c t' =>
      exact List.dropWhile_cons_of_neg (by simp [h c (List.mem_cons_self _ _)])
  have hr : rstripWs t = t := by
    unfold rstripWs
    cases hrev : t.reverse with
    | nil => rw [List.dropWhile_nil, ← hrev, List.reverse_reverse]
    | cons c r' =>
      have hmem : c ∈ t := by
        rw [← List.mem_reverse, hrev]
        exact List.mem_cons_self _ _
      rw [List.dropWhile_cons_of_neg (by simp [h c hmem]), ← hrev,
        List.reverse_reverse]
  show rstripWs (lstripWs t) = t
  rw [hl, hr]

theorem rules_not_infix {t : List Char}
    (h : ∀ pr ∈ REWRITE_RULES, ∃ c p', pr.1.data = c :: p' ∧ c ∉ t) :
    ∀ pr ∈ REWRITE_RULES, ¬(pr.1.data <:+: t) := by
  intro pr hpr hinf
  obtain ⟨c, p', he, hc⟩ := h pr hpr
  exact hc (hinf.subset (he ▸ List.mem_cons_self c p'))

/-- A string over the alphabet `{욕, 설, a}` is a normal form. -/
theorem normalForm_wit (n : Nat) :
    normalForm ('욕' :: '설' :: List.replicate n 'a') := by
  have hchars : ∀ x ∈ '욕' :: '설' :: List.replicate n 'a',
      x = '욕' ∨ x = '설' ∨ x = 'a' := by
    intro x hx
    rcases List.mem_cons.mp hx with rfl | hx1
    · exact Or.inl rfl
    rcases List.mem_cons.mp hx1 with rfl | hx2
    · exact Or.inr (Or.inl rfl)
    · exact Or.inr (Or.inr (List.eq_of_mem_replicate hx2))
  refine ⟨?_, ?_, ?_, ?_, ?_⟩
  · apply rules_not_infix
    intro pr hpr
    have hpr' : pr ∈ ([("럭스", "lx"), ("루멘", "lm"), ("칸델라", "cd"),
        ("킬로와트", "kW"), ("와트", "W"), ("볼트", "V"), ("암페어", "A"),
        ("옴", "Ω"), ("제곱미터", "m²"), ("평방미터", "m²"), ("키로바", "kVA"),
        ("케이브이에이", "kVA"), ("키로바르", "kVar"), ("케이바르", "kVar"),
        ("퍼센트", "%"), ("프로", "%"), ("역율", "역률"), ("조명율", "조명률"),
        ("인피던스", "임피던스"), ("코사인", "cosθ"), ("코싸인", "cosθ"),
        ("탄젠트", "tanθ"), ("파이", "π"), ("루트", "√")] :
          List (String × String)) := hpr
    have hnm : ∀ c : Char, c ≠ '욕' → c ≠ '설' → c ≠ 'a' →
        c ∉ '욕' :: '설' :: List.replicate n 'a' := by
      intro c h1 h2 h3 hmem
      rcases hchars c hmem with rfl | rfl | rfl
      · exact h1 rfl
      · exact h2 rfl
      · exact h3 rfl
    fin_cases hpr' <;>
      exact ⟨_, _, rfl, hnm _ (by decide) (by decide) (by decide)⟩
  · apply noPf_of_chars
    intro x hx
    rcases hchars x hx with rfl | rfl | rfl <;> decide
  · apply noCos_of_chars
    intro x hx
    rcases hchars x hx with rfl | rfl | rfl <;> decide
  · apply wsCanon_of_no_ws
    intro x hx
    rcases hchars x hx with rfl | rfl | rfl <;> decide
  · apply pyStrip_of_no_ws
    intro x hx
    rcases hchars x hx with rfl | rfl | rfl <;> decide

/-! ### Claim theorems (first group) -/

/-- C2: for every input-validation request supplying (truthy) text whose
normalized form is shorter than 3 characters, the verdict is invalid and
the errors contain the too-short message. -/
theorem C2_text_too_short (t : String) (img : Option String) (h1 : t ≠ "")
    (h2 : (normalize_text t).length < 3) :
    (validate_input ⟨some t, img⟩).valid = false ∧
      msg_too_short ∈ (validate_input ⟨some t, img⟩).errors := by
  have hmem : msg_too_short ∈ (validate_input ⟨some t, img⟩).errors := by
    show msg_too_short ∈
      input_text_errors (some t) ++ input_image_errors img
        ++ input_supply_errors (some t) img
    apply List.mem_append_left
    apply List.mem_append_left
    show msg_too_short ∈ input_text_errors (some t)
    simp only [input_text_errors]
    rw [if_neg h1,
      if_pos (show (normalize_text t).length < INPUT_RAILS_min_length from h2)]
    exact List.mem_append_left _ (List.mem_append_left _ (List.mem_singleton.mpr rfl))
  exact ⟨validate_input_valid_false (List.ne_nil_of_mem hmem), hmem⟩

theorem C2_witness :
    (("ab" : String) ≠ "" ∧ (normalize_text "ab").length < 3) ∧
      (validate_input ⟨some "ab", none⟩).valid = false ∧
        msg_too_short ∈ (validate_input ⟨some "ab", none⟩).errors :=
  ⟨⟨by decide, by decide⟩, C2_text_too_short "ab" none (by decide) (by decide)⟩

/-- C4: for every input-validation request supplying (truthy) text whose
normalized form contains some blocked-pattern alternative, the verdict is
invalid and the fixed inappropriate-content message occurs exactly once in
the errors, regardless of any other violations. -/
theorem C4_blocked_pattern (t : String) (img : Option String) (h1 : t ≠ "")
    (h2 : ∃ alts ∈ INPUT_RAILS_blocked_patterns, ∃ lit ∈ alts,
      lit.data <:+: (normalize_text t).data) :
    (validate_input ⟨some t, img⟩).valid = false ∧
      (validate_input ⟨some t, img⟩).errors.count msg_blocked = 1 := by
  have hck : check_blocked_patterns (normalize_text t).data = some msg_blocked :=
    check_blocked_patterns_hit h2
  have hcount : (validate_input ⟨some t, img⟩).errors.count msg_blocked = 1 := by
    show (input_text_errors (some t) ++ input_image_errors img
        ++ input_supply_errors (some t) img).count msg_blocked = 1
    rw [List.count_append, List.count_append]
    have htext : (input_text_errors (some t)).count msg_blocked = 1 := by
      simp only [input_text_errors]
      rw [if_neg h1, hck, List.count_append, List.count_append]
      have c1 : (if (normalize_text t).length < INPUT_RAILS_min_length
          then [msg_too_short] else []).count msg_blocked = 0 := by
        split_ifs <;> decide
      have c2 : (if (normalize_text t).length > INPUT_RAILS_max_length
          then [msg_too_long] else []).count msg_blocked = 0 := by
        split_ifs <;> decide
      rw [c1, c2]
      decide
    have himg : (input_image_errors img).count msg_blocked = 0 := by
      cases img with
      | none => rfl
      | some b =>
        simp only [input_image_errors]
        split_ifs <;> decide
    have hsup : (input_supply_errors (some t) img).count msg_blocked = 0 := by
      simp [input_supply_errors, pyTruthy_some_ne h1]
    rw [htext, himg, hsup]
  have hmem : msg_blocked ∈ (validate_input ⟨some t, img⟩).errors := by
    by_contra hc
    rw [List.count_eq_zero.mpr hc] at hcount
    exact absurd hcount (by decide)
  exact ⟨validate_input_valid_false (List.ne_nil_of_mem hmem), hcount⟩

theorem C4_witness :
    (("욕설 해킹" : String) ≠ "" ∧ ∃ alts ∈ INPUT_RAILS_blocked_patterns,
        ∃ lit ∈ alts, lit.data <:+: (normalize_text "욕설 해킹").data) ∧
      (validate_input ⟨some "욕설 해킹", none⟩).valid = false ∧
        (validate_input ⟨some "욕설 해킹", none⟩).errors.count msg_blocked = 1 :=
  ⟨⟨by decide, by decide⟩, C4_blocked_pattern "욕설 해킹" none (by decide) (by decide)⟩

/-- C5: the decoded-size estimate for an imageBase64 string of length L is
`L * 3 / 4` (floor), and the oversized-image error appears in the verdict
exactly when that estimate strictly exceeds 10 MiB; an estimate of exactly
10 MiB does not trigger it. -/
theorem C5_image_size_estimate (otext : Option String) (b : String) :
    estimate_base64_size b = b.length * 3 / 4 ∧
      (msg_image_too_big ∈ (validate_input ⟨otext, some b⟩).errors ↔
        b.length * 3 / 4 > 10 * 1024 * 1024) := by
  refine ⟨rfl, ?_⟩
  have herr : (validate_input ⟨otext, some b⟩).errors =
      input_text_errors otext ++ input_image_errors (some b)
        ++ input_supply_errors otext (some b) := rfl
  rw [herr]
  constructor
  · intro h
    rcases List.mem_append.mp h with h1 | h2
    · rcases List.mem_append.mp h1 with h3 | h4
      · rcases input_text_errors_mem h3 with he | he | he <;>
          exact absurd he (by decide)
      · simp only [input_image_errors] at h4
        by_cases hb : b = ""
        · rw [if_pos hb] at h4; simp at h4
        · rw [if_neg hb] at h4
          split_ifs at h4 with hs
          · exact hs
          · simp at h4
    · simp only [input_supply_errors] at h2
      split_ifs at h2 with hs
      · exact absurd (List.mem_singleton.mp h2) (by decide)
      · simp at h2
  · intro h
    apply List.mem_append_left
    apply List.mem_append_right
    simp only [input_image_errors]
    have hb : b ≠ "" := by
      intro hb
      rw [hb] at h
      exact absurd h (by decide)
    rw [if_neg hb, if_pos (show estimate_base64_size b > INPUT_RAILS_max_size_bytes from h)]
    exact List.mem_singleton.mpr rfl

/-- C6: input validation accumulates diagnostics without short-circuiting:
with text that is both over-long after normalization and contains a
blocked pattern, the errors list starts with the too-long error followed
by the inappropriate-content message, in that order. -/
theorem C6_accumulates_in_order (t : String) (img : Option String) (h1 : t ≠ "")
    (h2 : (normalize_text t).length > 2000)
    (h3 : ∃ alts ∈ INPUT_RAILS_blocked_patterns, ∃ lit ∈ alts,
      lit.data <:+: (normalize_text t).data) :
    ∃ rest, (validate_input ⟨some t, img⟩).errors =
      msg_too_long :: msg_blocked :: rest := by
  have hck := check_blocked_patterns_hit h3
  have hshort : ¬((normalize_text t).length < INPUT_RAILS_min_length) := by
    show ¬((normalize_text t).length < 3)
    omega
  have hlong : (normalize_text t).length > INPUT_RAILS_max_length := by
    show (normalize_text t).length > 2000
    omega
  have htext : input_text_errors (some t) = [msg_too_long, msg_blocked] := by
    simp only [input_text_errors]
    rw [if_neg h1, if_neg hshort, if_pos hlong, hck]
    rfl
  refine ⟨input_image_errors img ++ input_supply_errors (some t) img, ?_⟩
  show input_text_errors (some t) ++ input_image_errors img
      ++ input_supply_errors (some t) img = _
  rw [htext]
  simp

theorem C6_witness :
    ((String.mk ('욕' :: '설' :: List.replicate 2001 'a') ≠ "") ∧
      (normalize_text (String.mk ('욕' :: '설' :: List.replicate 2001 'a'))).length > 2000 ∧
      (∃ alts ∈ INPUT_RAILS_blocked_patterns, ∃ lit ∈ alts, lit.data <:+:
        (normalize_text (String.mk ('욕' :: '설' :: List.replicate 2001 'a'))).data)) ∧
    ∃ rest,
      (validate_input ⟨some (String.mk ('욕' :: '설' :: List.replicate 2001 'a')),
        none⟩).errors = msg_too_long :: msg_blocked :: rest := by
  have hnorm : normalize_text (String.mk ('욕' :: '설' :: List.replicate 2001 'a')) =
      String.mk ('욕' :: '설' :: List.replicate 2001 'a') := by
    apply String.ext
    rw [normalize_text_data, data_mk]
    exact normalizeData_id (normalForm_wit 2001)
  have h1 : String.mk ('욕' :: '설' :: List.replicate 2001 'a') ≠ "" := by
    intro h
    have hd := congrArg String.data h
    rw [data_mk] at hd
    exact List.cons_ne_nil _ _ hd
  have h2 : (normalize_text (String.mk ('욕' :: '설' :: List.replicate 2001 'a'))).length
      > 2000 := by
    rw [hnorm]
    show ('욕' :: '설' :: List.replicate 2001 'a').length > 2000
    simp only [List.length_cons, List.length_replicate]
    omega
  have h3 : ∃ alts ∈ INPUT_RAILS_blocked_patterns, ∃ lit ∈ alts, lit.data <:+:
      (normalize_text (String.mk ('욕' :: '설' :: List.replicate 2001 'a'))).data := by
    refine ⟨["욕설", "비속어", "공격적"], by decide, "욕설", by decide, ?_⟩
    rw [hnorm, data_mk]
    exact ⟨[], List.replicate 2001 'a', rfl⟩
  exact ⟨⟨h1, h2, h3⟩, C6_accumulates_in_order _ none h1 h2 h3⟩

/-- C1: for every output-validation request — any combination of present or
absent answer, steps, formulas, confidence and relatedKEC — the verdict of
`validate_output` has an empty `corrections` list and `valid = true`. -/
theorem C1_output_always_valid (request : OutputValidationRequest) :
    (validate_output request).corrections = [] ∧
      (validate_output request).valid = true :=
  ⟨rfl, rfl⟩

theorem step_warning_ne_missing_unit (n : Nat) :
    step_warning n ≠ msg_missing_unit := by
  intro h
  have hd : (step_warning n).data.head? = msg_missing_unit.data.head? := by rw [h]
  have h1 : (step_warning n).data.head? = some '풀' := by
    show (("풀이 단계 " ++ toString n ++ "의 제목 또는 내용이 누락되었습니다.").data).head? = some '풀'
    rw [String.data_append, String.data_append]
    rfl
  have h2 : msg_missing_unit.data.head? = some '답' := rfl
  rw [h1, h2] at hd
  exact absurd (Option.some_inj.mp hd) (by decide)

theorem output_required_warnings_mem {req : OutputValidationRequest} {e : String}
    (h : e ∈ output_required_warnings req) :
    e = missing_field_msg "answer" ∨ e = missing_field_msg "steps" ∨
      e = missing_field_msg "formulas" := by
  unfold output_required_warnings at h
  rcases List.mem_append.mp h with h1 | h2
  · rcases List.mem_append.mp h1 with h3 | h4
    · split_ifs at h3 with hc
      · simp at h3
      · exact Or.inl (List.mem_singleton.mp h3)
    · split_ifs at h4 with hc
      · simp at h4
      · exact Or.inr (Or.inl (List.mem_singleton.mp h4))
  · split_ifs at h2 with hc
    · simp at h2
    · exact Or.inr (Or.inr (List.mem_singleton.mp h2))

theorem output_step_warnings_mem {o : Option (List SolutionStep)} {e : String}
    (h : e ∈ output_step_warnings o) : ∃ n, e = step_warning n := by
  cases o with
  | none => simp [output_step_warnings] at h
  | some steps =>
    simp only [output_step_warnings] at h
    split_ifs at h with hc
    · simp at h
    · rcases List.mem_filterMap.mp h with ⟨p, hp, hpe⟩
      by_cases hb : (pyTruthy p.2.title && pyTruthy p.2.content) = true
      · rw [if_pos hb] at hpe; exact absurd hpe (by simp)
      · rw [if_neg hb] at hpe
        exact ⟨p.1 + 1, (Option.some_inj.mp hpe).symm⟩

/-- C8: for every output-validation request with a non-empty answer, the
missing-unit warning appears iff the answer contains a digit and none of
the recognized units occurs as a substring of it. -/
theorem C8_missing_unit_iff (a : String) (osteps : Option (List SolutionStep))
    (oform : Option (List String)) (oconf : Option ℚ) (okec : Option (List String))
    (h1 : a ≠ "") :
    msg_missing_unit ∈ (validate_output ⟨some a, osteps, oform, oconf, okec⟩).warnings ↔
      ((∃ c ∈ a.data, isDig c = true) ∧
        ∀ u ∈ OUTPUT_RAILS_si_units, ¬(u.data <:+: a.data)) := by
  have hAW : msg_missing_unit ∈ output_answer_warnings (some a) ↔
      ((∃ c ∈ a.data, isDig c = true) ∧
        ∀ u ∈ OUTPUT_RAILS_si_units, ¬(u.data <:+: a.data)) := by
    simp only [output_answer_warnings]
    rw [if_neg h1]
    split_ifs with hc
    · rw [Bool.and_eq_true] at hc
      obtain ⟨hnum, hunit⟩ := hc
      constructor
      · intro _
        refine ⟨by simpa using hnum, ?_⟩
        intro u hu hinf
        have hany : (OUTPUT_RAILS_si_units.any fun u => decide (u.data <:+: a.data)) = true :=
          List.any_eq_true.mpr ⟨u, hu, decide_eq_true hinf⟩
        rw [hany] at hunit
        exact absurd hunit (by decide)
      · exact fun _ => List.mem_singleton.mpr rfl
    · constructor
      · intro hmem; exact absurd hmem (by simp)
      · rintro ⟨hnum, hunit⟩
        exfalso
        apply hc
        rw [Bool.and_eq_true]
        refine ⟨by simpa using hnum, ?_⟩
        have hany : (OUTPUT_RAILS_si_units.any fun u => decide (u.data <:+: a.data)) = false :=
          List.any_eq_false.mpr fun u hu h => hunit u hu (of_decide_eq_true h)
        rw [hany]
        rfl
  have hw : (validate_output ⟨some a, osteps, oform, oconf, okec⟩).warnings =
      output_required_warnings ⟨some a, osteps, oform, oconf, okec⟩
        ++ output_answer_warnings (some a)
        ++ output_step_warnings osteps
        ++ output_confidence_warnings oconf := rfl
  rw [hw, List.mem_append, List.mem_append, List.mem_append]
  constructor
  · rintro (((h | h) | h) | h)
    · rcases output_required_warnings_mem h with he | he | he <;>
        exact absurd he (by decide)
    · exact hAW.mp h
    · rcases output_step_warnings_mem h with ⟨n, hn⟩
      exact absurd hn.symm (step_warning_ne_missing_unit n)
    · cases oconf with
      | none => simp [output_confidence_warnings] at h
      | some c =>
        simp only [output_confidence_warnings] at h
        split_ifs at h with hc
        · exact absurd (List.mem_singleton.mp h) (by decide)
        · simp at h
  · intro hr
    exact Or.inl (Or.inl (Or.inr (hAW.mpr hr)))

theorem C8_witness :
    (("250" : String) ≠ "") ∧
      (msg_missing_unit ∈
          (validate_output ⟨some "250", none, none, none, none⟩).warnings ↔
        ((∃ c ∈ ("250" : String).data, isDig c = true) ∧
          ∀ u ∈ OUTPUT_RAILS_si_units, ¬(u.data <:+: ("250" : String).data))) :=
  ⟨by decide, C8_missing_unit_iff "250" none none none none (by decide)⟩

/-- C7: when neither text nor image is present, the verdict is invalid,
the errors consist of the must-supply message, and no normalized text is
returned. -/
theorem C7_neither_text_nor_image :
    (validate_input ⟨none, none⟩).valid = false ∧
      msg_must_supply ∈ (validate_input ⟨none, none⟩).errors ∧
      (validate_input ⟨none, none⟩).normalized_text = none := by
  refine ⟨rfl, ?_, rfl⟩
  show msg_must_supply ∈ [msg_must_supply]
  exact List.mem_singleton.mpr rfl

/-- C9: an empty-string text is treated as absent (no text checks run, no
normalized text, must-supply error instead), and likewise an empty-string
image. -/
theorem C9_empty_string_is_absent :
    validate_input ⟨some "", none⟩ =
        { valid := false, errors := [msg_must_supply], normalized_text := none } ∧
      validate_input ⟨none, some ""⟩ =
        { valid := false, errors := [msg_must_supply], normalized_text := none } ∧
      validate_input ⟨some "", some ""⟩ =
        { valid := false, errors := [msg_must_supply], normalized_text := none } := by
  refine ⟨?_, ?_, ?_⟩ <;> rfl

end NemoGuard
